import Mathlib

/-!
Verification development for the crawler frontier of the meta-prompter
repository: the URL normalizer and restriction policy
(src/meta_prompter/core/url_processor.py) and the frontier store
(src/meta_prompter/core/job_manager.py, class ThreadSafeJobState), with the
configuration model from src/meta_prompter/models/scrape_job.py.

The Python code parses URLs with pydantic v2's HttpUrl, which is backed by
the WHATWG `url` crate.  That parser is external library code, so it is
modelled here on the fragment of its behaviour the frontier exercises:
http/https URLs made of scheme, optional userinfo, lower-cased host,
optional decimal port, path (defaulted to "/" when absent), optional query
and optional fragment.  Not modelled (never exercised by the code under
verification or by the spec's scenarios): percent-encoding, IDNA/punycode,
IPv6 bracket hosts, backslash-as-slash, whitespace stripping, the 2083-char
length cap, and the port's numeric 16-bit range check.
-/

namespace MetaPrompter

/-- ASCII lower-casing of one character, as pydantic's host/scheme
normalization applies to the ASCII inputs modelled here. -/
def lowerChar (c : Char) : Char :=
  match c with
  | 'A' => 'a' | 'B' => 'b' | 'C' => 'c' | 'D' => 'd' | 'E' => 'e'
  | 'F' => 'f' | 'G' => 'g' | 'H' => 'h' | 'I' => 'i' | 'J' => 'j'
  | 'K' => 'k' | 'L' => 'l' | 'M' => 'm' | 'N' => 'n' | 'O' => 'o'
  | 'P' => 'p' | 'Q' => 'q' | 'R' => 'r' | 'S' => 's' | 'T' => 't'
  | 'U' => 'u' | 'V' => 'v' | 'W' => 'w' | 'X' => 'x' | 'Y' => 'y'
  | 'Z' => 'z'
  | c => c

/-- Python's str.rstrip with a single slash: drop every trailing '/'. -/
def rstripSlash (l : List Char) : List Char :=
  (l.reverse.dropWhile (· == '/')).reverse

/-- Python's str.split(sep) for a one-character separator: the list of
(possibly empty) chunks between occurrences of the separator; always
non-empty. -/
def splitChar (c : Char) : List Char → List (List Char)
  | [] => [[]]
  | x :: xs =>
    match splitChar c xs with
    | [] => [[]]
    | h :: t => if x = c then [] :: h :: t else (x :: h) :: t

/-- Python's `pat in s` substring test. -/
def containsSub (pat : List Char) : List Char → Bool
  | [] => pat.isPrefixOf []
  | c :: rest => pat.isPrefixOf (c :: rest) || containsSub pat rest

/-- Characters terminating the authority component. -/
def isDelim1 (c : Char) : Bool := c == '/' || c == '?' || c == '#'

/-- Characters terminating the path component. -/
def isDelim2 (c : Char) : Bool := c == '?' || c == '#'

/-- Split a URL string at the first occurrence of "://": returns the part
before (the scheme candidate) and the part after. -/
def splitSch : List Char → Option (List Char × List Char)
  | [] => none
  | c :: rest =>
    if c = ':' ∧ rest.take 2 = ['/', '/'] then some ([], rest.drop 2)
    else
      match splitSch rest with
      | some (a, b) => some (c :: a, b)
      | none => none

/-- The part of the authority after the last '@' (hosts may be preceded by
userinfo); the whole authority when there is no '@'. -/
def afterLastAt (l : List Char) : List Char :=
  (l.reverse.takeWhile (· != '@')).reverse

/-- The components pydantic v2's HttpUrl exposes of a parsed URL.  The port
is kept as its raw digit string (it is only needed for str() serialization
of seeds); an empty list means no explicit port. -/
structure UrlObj where
  scheme : List Char
  host : List Char
  port : List Char
  path : List Char
  query : Option (List Char)
  fragment : Option (List Char)
deriving DecidableEq

/-- Host and port of an authority: the raw host is what precedes the first
':' of the part after the last '@'; the host is lower-cased, the port must
be all decimal digits, and an empty host is rejected (as pydantic rejects
"https://"). -/
def parseHostPort (auth : List Char) : Option (List Char × List Char) :=
  if ((afterLastAt auth).takeWhile (· != ':')).isEmpty then none
  else if (((afterLastAt auth).dropWhile (· != ':')).drop 1).all (·.isDigit) then
    some (((afterLastAt auth).takeWhile (· != ':')).map lowerChar,
      ((afterLastAt auth).dropWhile (· != ':')).drop 1)
  else none

/-- The path component of everything after the authority: what precedes the
first '?' or '#', defaulted to "/" when empty (the url crate's path() is
never empty for http(s)). -/
def pqfPath (rest2 : List Char) : List Char :=
  if (rest2.takeWhile (fun c => !(isDelim2 c))).isEmpty then ['/']
  else rest2.takeWhile (fun c => !(isDelim2 c))

/-- Path, query and fragment of everything after the authority.  The query
is present (possibly empty) exactly when '?' occurs before any '#'. -/
def parsePQF (rest2 : List Char) : List Char × Option (List Char) × Option (List Char) :=
  match rest2.dropWhile (fun c => !(isDelim2 c)) with
  | '?' :: qs =>
    (pqfPath rest2, some (qs.takeWhile (· != '#')),
      match qs.dropWhile (· != '#') with | _ :: fs => some fs | [] => none)
  | '#' :: fs => (pqfPath rest2, none, some fs)
  | _ => (pqfPath rest2, none, none)

/-- Model of `HttpUrl(url)`: split the scheme at "://", lower-case and
check it, scan the authority up to the first '/', '?' or '#', then read
path, query and fragment from the remainder.  none models the
ValidationError pydantic raises on input that is not a well-formed http(s)
URL. -/
def parseUrl (l : List Char) : Option UrlObj :=
  match splitSch l with
  | none => none
  | some (schRaw, rest) =>
    if schRaw.map lowerChar = "http".data ∨ schRaw.map lowerChar = "https".data then
      match parseHostPort (rest.takeWhile (fun c => !(isDelim1 c))) with
      | none => none
      | some (host, port) =>
        some ⟨schRaw.map lowerChar, host, port,
          (parsePQF (rest.dropWhile (fun c => !(isDelim1 c)))).1,
          (parsePQF (rest.dropWhile (fun c => !(isDelim1 c)))).2.1,
          (parsePQF (rest.dropWhile (fun c => !(isDelim1 c)))).2.2⟩
    else none

/-- The f-string reconstruction inside normalize_url:
scheme://host path, plus "?query" when the query is truthy (non-empty). -/
def reconChars (o : UrlObj) : List Char :=
  o.scheme ++ ':' :: '/' :: '/' :: (o.host ++ o.path) ++
    (match o.query with
     | some (c :: q) => '?' :: c :: q
     | _ => [])

/-- Character-list core of normalize_url (url_processor.py, lines 6-17):
reconstruct scheme://host/path[?query] and rstrip '/', falling back to
fragment-stripping plus rstrip when parsing fails. -/
def normChars (l : List Char) : List Char :=
  match parseUrl l with
  | some o => rstripSlash (reconChars o)
  | none => rstripSlash (l.takeWhile (· != '#'))

/-- normalize_url from src/meta_prompter/core/url_processor.py. -/
def normalize_url (s : String) : String :=
  String.mk (normChars s.data)

/-- str() of a validated HttpUrl: the url crate's serialization of the
parsed components (scheme://[userinfo elided]host[:port]path[?query][#fragment]). -/
def serializeChars (o : UrlObj) : List Char :=
  o.scheme ++ ':' :: '/' :: '/' :: o.host ++
    (if o.port.isEmpty then [] else ':' :: o.port) ++ o.path ++
    (match o.query with | some q => '?' :: q | none => []) ++
    (match o.fragment with | some f => '#' :: f | none => [])

/-- str(url) for a seed URL.  ScrapeJobConfig validates seed_urls as
HttpUrl values, so for every configuration the store can be built for, the
parse succeeds; the identity fallback is never reached for such configs. -/
def seedStr (s : String) : String :=
  match parseUrl s.data with
  | some o => String.mk (serializeChars o)
  | none => s

/-- String-level rstrip('/'). -/
def rstripS (s : String) : String :=
  String.mk (rstripSlash s.data)

/-- ScrapeJobConfig from src/meta_prompter/models/scrape_job.py (the class
core/job_manager.py imports).  max_pages and max_depth are Optional[int]
(both default to None there); seed URLs are carried as their raw strings
and parsed with the HttpUrl model where the Python code parses them. -/
structure ScrapeJobConfig where
  name : String
  seed_urls : List String
  follow_links : Bool := true
  domain_restricted : Bool := true
  path_restricted : Bool := true
  max_pages : Option Int := none
  max_depth : Option Int := none
  exclusion_patterns : List String := []
deriving DecidableEq

/-- Page from src/meta_prompter/models/page.py.  created_at (a datetime
that never participates in hashing, equality or any frontier decision) is
omitted.  Hashing and equality are by url alone, which the set operations
below mirror. -/
structure Page where
  project_id : String
  url : String
  filename : Option String := none
  content_hash : Option String := none
  done : Bool := false
deriving DecidableEq

/-- The mutable state of ThreadSafeJobState (job_manager.py): the Page set,
the url -> depth dict and the pending-url set.  Python sets/dicts are
represented as duplicate-free lists; the set/dict operations below preserve
key-uniqueness exactly as the Python types enforce it. -/
structure JobState where
  pages : List Page
  url_depths : List (String × Nat)
  pending_urls : List String
deriving DecidableEq

/-- set.add on the Page set: a no-op when a Page with the same url (the
equality Page defines) is present. -/
def setAddPage (ps : List Page) (pg : Page) : List Page :=
  if ps.any (fun p => p.url == pg.url) then ps else ps ++ [pg]

/-- set.add on a set of strings. -/
def setAddStr (l : List String) (u : String) : List String :=
  if l.contains u then l else l ++ [u]

/-- dict assignment d[k] = v: replace the key's entry when present,
otherwise append the new entry (Python dicts hold one entry per key). -/
def dictSet : List (String × Nat) → String → Nat → List (String × Nat)
  | [], k, v => [(k, v)]
  | e :: rest, k, v =>
    if e.1 = k then (k, v) :: dictSet rest k v else e :: dictSet rest k v

/-- A Python set built from a list of strings: the distinct elements (so
membership is membership in the list, and the length is the number of
distinct elements, which is all `len` and `in` observe of a set). -/
def pySet : List String → List String
  | [] => []
  | x :: xs => if (pySet xs).contains x then pySet xs else x :: pySet xs

/-- dict lookup d.get(k, 0). -/
def dictGetD : List (String × Nat) → String → Nat
  | [], _ => 0
  | e :: rest, k => if e.1 = k then e.2 else dictGetD rest k

/-- Python truthy `a or b` on optional strings: the empty string counts as
falsy, so `filename or old.filename` keeps the old value for None and "". -/
def pyOr (a b : Option String) : Option String :=
  match a with
  | none => b
  | some s => if s = "" then b else a

/-- should_scrape_url (url_processor.py, lines 25-58), with the checks in
source order; any pydantic validation error inside the try block (from the
candidate or from re-parsing a seed) yields False. -/
def should_scrape_url (url : String) (config : ScrapeJobConfig)
    (scraped_urls : List String) : Bool :=
  if scraped_urls.contains url then false
  else
    match parseUrl url.data with
    | none => false
    | some url_obj =>
      -- domain restriction: url_obj.host must be among the seed hosts
      match
        (if config.domain_restricted then
          match (config.seed_urls.mapM (fun s => parseUrl s.data)) with
          | none => none  -- a seed fails to re-validate: exception, False
          | some objs => some ((objs.map (fun o => o.host)).contains url_obj.host)
        else some true) with
      | none => false
      | some false => false
      | some true =>
        -- path restriction: first path segment must match a seed's
        match
          (if config.path_restricted then
            match (config.seed_urls.mapM (fun s => parseUrl s.data)) with
            | none => none
            | some objs =>
              let seed_paths := (objs.filter
                  (fun o => !((splitChar '/' o.path).drop 1).isEmpty)).map
                (fun o => ((splitChar '/' o.path).drop 1).headD [])
              let url_parts := splitChar '/' url_obj.path
              if url_parts.length > 1 ∧ (url_parts.drop 1).headD [] ≠ [] then
                some (seed_paths.contains ((url_parts.drop 1).headD []))
              else some true
          else some true) with
        | none => false
        | some false => false
        | some true =>
          -- exclusion patterns: substring match on the url string
          !config.exclusion_patterns.any (fun pat => containsSub pat.data url.data)

/-- _check_max_pages (job_manager.py, lines 25-30): the count of done pages
has reached max_pages; False when max_pages is None. -/
def checkMaxPages (config : ScrapeJobConfig) (s : JobState) : Bool :=
  match config.max_pages with
  | none => false
  | some mp => ((s.pages.filter (fun p => p.done)).length : Int) ≥ mp

/-- Accepting one candidate (already normalized): a fresh not-done Page,
the depth entry, and a pending entry. -/
def acceptUrl (config : ScrapeJobConfig) (newDepth : Nat) (s : JobState)
    (nu : String) : JobState :=
  { pages := setAddPage s.pages { project_id := config.name, url := nu },
    url_depths := dictSet s.url_depths nu newDepth,
    pending_urls := setAddStr s.pending_urls nu }

/-- The candidate loop of add_urls: scraped/all url sets and the slot count
are the snapshots computed before the loop; a candidate is accepted when its
normalized form is not already known and passes the restriction policy. -/
def addLoop (config : ScrapeJobConfig) (scraped allUrls : List String)
    (remaining : Int) (newDepth : Nat) :
    List String → JobState → List String → Int → JobState × List String
  | [], s, added, _ => (s, added)
  | url :: rest, s, added, processed =>
    if processed ≥ remaining then (s, added)
    else
      if !allUrls.contains (normalize_url url) &&
          should_scrape_url (normalize_url url) config scraped then
        addLoop config scraped allUrls remaining newDepth rest
          (acceptUrl config newDepth s (normalize_url url))
          (added ++ [normalize_url url]) (processed + 1)
      else
        addLoop config scraped allUrls remaining newDepth rest s added processed

/-- add_urls (job_manager.py, lines 32-68).  Returns none for the TypeError
Python raises at `remaining_slots = self.config.max_pages - len(scraped_urls)`
when max_pages is None; the exception fires before any state is mutated, so
a crashing call leaves the store unchanged. -/
def add_urls (config : ScrapeJobConfig) (s : JobState) (urls : List String)
    (source_url : String) : Option (JobState × List String) :=
  let src := normalize_url source_url
  if checkMaxPages config s then some (s, [])
  else
    let new_depth := dictGetD s.url_depths src + 1
    if (match config.max_depth with
        | some md => ((new_depth : Int) > md : Bool)
        | none => false) then some (s, [])
    else
      match config.max_pages with
      | none => none
      | some mp =>
        let scraped := pySet ((s.pages.filter (fun p => p.done)).map
          (fun p => normalize_url p.url))
        let allUrls := pySet (s.pages.map (fun p => normalize_url p.url))
        let remaining : Int := mp - scraped.length
        some (addLoop config scraped allUrls remaining new_depth urls s [] 0)

/-- mark_done (job_manager.py, lines 70-83): no-op on an unknown url,
otherwise replace the Page with a done Page carrying `filename or old` /
`content_hash or old` metadata and discard the url from the pending set. -/
def mark_done (config : ScrapeJobConfig) (s : JobState) (url : String)
    (filename content_hash : Option String) : JobState :=
  match s.pages.find? (fun p => p.url == url) with
  | none => s
  | some old_page =>
    { pages := setAddPage (s.pages.filter (fun p => p.url != url))
        { project_id := config.name, url := url, done := true,
          filename := pyOr filename old_page.filename,
          content_hash := pyOr content_hash old_page.content_hash },
      url_depths := s.url_depths,
      pending_urls := s.pending_urls.filter (fun u => u != url) }

/-- get_pending_urls (job_manager.py, lines 85-91): when the budget is
reached, clear the pending set and return []; otherwise return the pending
urls (the state component first, the returned list second). -/
def get_pending_urls (config : ScrapeJobConfig) (s : JobState) :
    JobState × List String :=
  if checkMaxPages config s then ({ s with pending_urls := [] }, [])
  else (s, s.pending_urls)

/-- One seed-URL insertion of __init__: url_str = str(url).rstrip('/'),
depth 0, a fresh not-done Page, and a pending entry. -/
def initSeed (config : ScrapeJobConfig) (s : JobState) (url : String) : JobState :=
  let url_str := rstripS (seedStr url)
  { pages := setAddPage s.pages { project_id := config.name, url := url_str },
    url_depths := dictSet s.url_depths url_str 0,
    pending_urls := setAddStr s.pending_urls url_str }

/-- ThreadSafeJobState.__init__: fold the seed insertions over an empty
store. -/
def initState (config : ScrapeJobConfig) : JobState :=
  config.seed_urls.foldl (initSeed config) ⟨[], [], []⟩

/-- The store's public operations, for reachability over call sequences. -/
inductive Op where
  | addUrls (urls : List String) (source_url : String)
  | markDone (url : String) (filename content_hash : Option String)
  | getPending
deriving DecidableEq

/-- The state after one public call.  A crashing add_urls (max_pages None)
propagates its TypeError before mutating anything, so it leaves the state
unchanged. -/
def step (config : ScrapeJobConfig) (s : JobState) : Op → JobState
  | .addUrls urls src =>
    match add_urls config s urls src with
    | some (s', _) => s'
    | none => s
  | .markDone url fn ch => mark_done config s url fn ch
  | .getPending => (get_pending_urls config s).1

/-- The state after a sequence of public calls on a freshly seeded store. -/
def runTrace (config : ScrapeJobConfig) (ops : List Op) : JobState :=
  ops.foldl (step config) (initState config)

/-- A url whose canonical form is a fixed point of normalization. -/
def stableUrl (u : String) : Bool :=
  normalize_url (normalize_url u) == normalize_url u

/-- A call sequence that exercises neither of the two failure modes of the
pending-equals-not-done invariant: every get_pending call happens while the
budget is not yet reached (so the clearing branch never fires), and every
add_urls candidate normalizes to a fixed point (so the dedup guard cannot
miss an existing page). -/
def cleanRun (config : ScrapeJobConfig) : JobState → List Op → Bool
  | _, [] => true
  | s, op :: rest =>
    (match op with
     | Op.addUrls urls _ => urls.all stableUrl
     | Op.markDone _ _ _ => true
     | Op.getPending => !checkMaxPages config s) &&
    cleanRun config (step config s op) rest

/-- The pending set is exactly the urls of the not-done pages. -/
def pendingInv (s : JobState) : Prop :=
  ∀ u : String, u ∈ s.pending_urls ↔ ∃ p ∈ s.pages, p.done = false ∧ p.url = u

/-- The count of done pages (the quantity _check_max_pages compares to
max_pages). -/
def doneCount (s : JobState) : Nat :=
  (s.pages.filter (fun p => p.done)).length

/-- A url that parses with a non-empty query made entirely of slashes:
exactly the inputs on which the rstrip of normalize_url erases the whole
query and leaves a dangling trailing question mark. -/
def allSlashQuery (u : String) : Bool :=
  match parseUrl u.data with
  | some o =>
    match o.query with
    | some q => !q.isEmpty && q.all (· == '/')
    | none => false
  | none => false

/-- A url that parses with an empty query and no fragment: exactly the
inputs whose canonical form changes when a trailing slash is appended. -/
def emptyQueryNoFrag (u : String) : Bool :=
  match parseUrl u.data with
  | some o => o.query == some [] && o.fragment.isNone
  | none => false

section ConcreteConfigs

/-- A store configuration with the scrape_job.py defaults
(max_pages = None, max_depth = None) and one seed. -/
def cfgUnlimited : ScrapeJobConfig :=
  { name := "job", seed_urls := ["https://a.com"] }

/-- Seeded single-page store with max_pages = 0. -/
def cfgBudgetZero : ScrapeJobConfig :=
  { name := "job", seed_urls := ["https://a.com"], max_pages := some 0 }

/-- Domain-restricted configuration without path restriction, for
exercising canonical-URL collisions. -/
def cfgNoPath : ScrapeJobConfig :=
  { name := "job", seed_urls := ["https://a.com/"], path_restricted := false,
    max_pages := some 10 }

/-- Fully restricted configuration with a pathless seed. -/
def cfgPathlessSeed : ScrapeJobConfig :=
  { name := "job", seed_urls := ["https://a.com/"], max_pages := some 10 }

/-- The end-to-end scenario configuration of spec section 8, item 7. -/
def cfgDocs : ScrapeJobConfig :=
  { name := "doc", seed_urls := ["https://docs.example.com/guide/intro"],
    max_pages := some 3, max_depth := some 2 }

end ConcreteConfigs

section UrlLemmas

/-- takeWhile of a list all of whose elements satisfy the predicate. -/
theorem takeWhile_of_all {p : Char → Bool} {l : List Char}
    (h : ∀ c ∈ l, p c) : l.takeWhile p = l :=
  List.takeWhile_eq_self_iff.mpr h

/-- dropWhile of a list all of whose elements satisfy the predicate. -/
theorem dropWhile_of_all {p : Char → Bool} {l : List Char}
    (h : ∀ c ∈ l, p c) : l.dropWhile p = [] :=
  List.dropWhile_eq_nil_iff.mpr h

/-- takeWhile distributes over an append whose left part satisfies the
predicate throughout. -/
theorem takeWhile_append_of_all {p : Char → Bool} {a : List Char}
    (h : ∀ c ∈ a, p c) (b : List Char) :
    (a ++ b).takeWhile p = a ++ b.takeWhile p := by
  induction a with
  | nil => rfl
  | cons c rest ih =>
    have hc : p c = true := h c (List.mem_cons_self _ _)
    simp only [List.cons_append, List.takeWhile_cons, hc, if_true]
    rw [ih (fun d hd => h d (List.mem_cons_of_mem _ hd))]

/-- dropWhile skips an append's left part when it satisfies the predicate
throughout. -/
theorem dropWhile_append_of_all {p : Char → Bool} {a : List Char}
    (h : ∀ c ∈ a, p c) (b : List Char) :
    (a ++ b).dropWhile p = b.dropWhile p := by
  induction a with
  | nil => rfl
  | cons c rest ih =>
    have hc : p c = true := h c (List.mem_cons_self _ _)
    simp only [List.cons_append, List.dropWhile_cons, hc, if_true]
    exact ih (fun d hd => h d (List.mem_cons_of_mem _ hd))

/-- takeWhile ignores everything appended after a failing element. -/
theorem takeWhile_append_of_stop {p : Char → Bool} {a : List Char}
    (h : a.dropWhile p ≠ []) (b : List Char) :
    (a ++ b).takeWhile p = a.takeWhile p := by
  induction a with
  | nil => exact absurd rfl h
  | cons c rest ih =>
    by_cases hc : p c
    · simp only [List.dropWhile_cons, hc, if_true] at h
      simp only [List.cons_append, List.takeWhile_cons, hc, if_true]
      rw [ih h]
    · rw [Bool.not_eq_true] at hc
      simp only [List.cons_append, List.takeWhile_cons, hc]
      rfl

/-- dropWhile carries an append across when the left part already fails. -/
theorem dropWhile_append_of_stop {p : Char → Bool} {a : List Char}
    (h : a.dropWhile p ≠ []) (b : List Char) :
    (a ++ b).dropWhile p = a.dropWhile p ++ b := by
  rw [List.dropWhile_append]
  simp only [List.isEmpty_iff]
  rw [if_neg h]

/-- dropWhile is idempotent. -/
theorem dropWhile_dropWhile {p : Char → Bool} (l : List Char) :
    (l.dropWhile p).dropWhile p = l.dropWhile p := by
  induction l with
  | nil => rfl
  | cons c rest ih =>
    by_cases hc : p c
    · simp only [List.dropWhile_cons, hc, if_true]
      exact ih
    · rw [Bool.not_eq_true] at hc
      have hstep : List.dropWhile p (c :: rest) = c :: rest := by
        simp [List.dropWhile_cons, hc]
      rw [hstep, hstep]

/-- rstripSlash of an empty list. -/
theorem rstripSlash_nil : rstripSlash [] = [] := rfl

/-- A trailing slash is removed. -/
theorem rstripSlash_append_slash (l : List Char) :
    rstripSlash (l ++ ['/']) = rstripSlash l := by
  unfold rstripSlash
  rw [List.reverse_append]
  rfl

/-- A trailing non-slash is kept, and protects everything before it. -/
theorem rstripSlash_append_of_ne {c : Char} (h : c ≠ '/') (l : List Char) :
    rstripSlash (l ++ [c]) = l ++ [c] := by
  unfold rstripSlash
  rw [List.reverse_append]
  have hc : (c == '/') = false := by simpa using h
  simp only [List.reverse_singleton, List.singleton_append, List.dropWhile_cons,
    hc]
  simp only [Bool.false_eq_true, if_false, List.reverse_cons, List.reverse_reverse]

/-- Every list is its rstripSlash plus a run of slashes. -/
theorem rstripSlash_decomp (l : List Char) :
    ∃ n, l = rstripSlash l ++ List.replicate n '/' := by
  refine ⟨(l.reverse.takeWhile (· == '/')).length, ?_⟩
  unfold rstripSlash
  have h1 : l.reverse.takeWhile (· == '/') =
      List.replicate (l.reverse.takeWhile (· == '/')).length '/' := by
    apply List.eq_replicate_of_mem
    intro b hb
    have := List.mem_takeWhile_imp hb
    simpa using this
  conv_lhs => rw [← l.reverse_reverse, ← List.takeWhile_append_dropWhile
    (p := (· == '/')) (l := l.reverse)]
  rw [List.reverse_append]
  congr 1
  conv_lhs => rw [h1]
  rw [List.reverse_replicate]

/-- Members of the stripped list are members of the original. -/
theorem mem_of_mem_rstripSlash {l : List Char} {c : Char}
    (h : c ∈ rstripSlash l) : c ∈ l := by
  obtain ⟨n, hn⟩ := rstripSlash_decomp l
  rw [hn]
  exact List.mem_append_left _ h

/-- The strip is empty exactly when the list is all slashes. -/
theorem rstripSlash_eq_nil_iff {l : List Char} :
    rstripSlash l = [] ↔ ∀ c ∈ l, c = '/' := by
  unfold rstripSlash
  rw [List.reverse_eq_nil_iff, List.dropWhile_eq_nil_iff]
  constructor
  · intro h c hc
    have := h c (List.mem_reverse.mpr hc)
    simpa using this
  · intro h c hc
    have := h c (List.mem_reverse.mp hc)
    simpa using this

/-- Stripping a list with some non-slash member is non-empty. -/
theorem rstripSlash_ne_nil {l : List Char} {c : Char} (hc : c ∈ l)
    (h : c ≠ '/') : rstripSlash l ≠ [] := by
  intro he
  exact h (rstripSlash_eq_nil_iff.mp he c hc)

/-- Stripping distributes into the right part of an append when that part
does not strip to nothing. -/
theorem rstripSlash_append {a b : List Char} (h : rstripSlash b ≠ []) :
    rstripSlash (a ++ b) = a ++ rstripSlash b := by
  unfold rstripSlash at h ⊢
  rw [List.reverse_append, dropWhile_append_of_stop, List.reverse_append,
    List.reverse_reverse]
  intro he
  rw [he] at h
  exact h rfl

/-- A stripped list is unaffected by further stripping, even after
prepending. -/
theorem rstripSlash_append_rstrip {a b : List Char} (h : rstripSlash b ≠ []) :
    rstripSlash (a ++ rstripSlash b) = a ++ rstripSlash b := by
  unfold rstripSlash at h ⊢
  rw [List.reverse_append, List.reverse_reverse, dropWhile_append_of_stop,
    dropWhile_dropWhile, List.reverse_append, List.reverse_reverse]
  rw [dropWhile_dropWhile]
  intro he
  rw [he] at h
  exact h rfl

/-- rstripSlash is idempotent. -/
theorem rstripSlash_rstripSlash (l : List Char) :
    rstripSlash (rstripSlash l) = rstripSlash l := by
  by_cases h : rstripSlash l = []
  · rw [h]
    rfl
  · have := rstripSlash_append_rstrip (a := []) (b := l) h
    simpa using this

/-- A list without slashes strips to itself. -/
theorem rstripSlash_of_no_slash {l : List Char} (h : ∀ c ∈ l, c ≠ '/') :
    rstripSlash l = l := by
  unfold rstripSlash
  have hself : l.reverse.dropWhile (· == '/') = l.reverse := by
    rw [List.dropWhile_eq_self_iff]
    intro hlen
    have hm : l.reverse.get ⟨0, hlen⟩ ∈ l :=
      List.mem_reverse.mp (List.get_mem _ _ _)
    simpa using h _ hm
  rw [hself, List.reverse_reverse]

/-- Stripping an append whose right part is all slashes strips only the
left part. -/
theorem rstripSlash_append_slashes {a b : List Char} (h : ∀ c ∈ b, c = '/') :
    rstripSlash (a ++ b) = rstripSlash a := by
  have hb : b = List.replicate b.length '/' := List.eq_replicate_of_mem h
  rw [hb]
  induction b.length with
  | zero => simp
  | succ n ih =>
    rw [List.replicate_succ' (n := n), ← List.append_assoc, rstripSlash_append_slash]
    exact ih

/-- A non-empty stripped list keeps the head of the original list. -/
theorem rstripSlash_head {l : List Char} (h : rstripSlash l ≠ []) :
    (rstripSlash l).head? = l.head? := by
  obtain ⟨n, hn⟩ := rstripSlash_decomp l
  conv_rhs => rw [hn]
  cases he : rstripSlash l with
  | nil => exact absurd he h
  | cons c rest => simp [he]

/-- lowerChar lands on a fixed point: its output is the input itself or a
lowercase letter, and lowercase letters are untouched. -/
theorem lowerChar_lowerChar (c : Char) : lowerChar (lowerChar c) = lowerChar c := by
  have key : lowerChar c = c ∨ lowerChar c ∈ "abcdefghijklmnopqrstuvwxyz".data := by
    unfold lowerChar
    split
    all_goals first
    | exact Or.inr (by decide)
    | exact Or.inl rfl
  have low_fix : ∀ d ∈ "abcdefghijklmnopqrstuvwxyz".data, lowerChar d = d := by
    decide
  rcases key with h | h
  · rw [h, h]
  · exact low_fix _ h

/-- lowerChar never produces a ':', '/', '?', '#' or '@' from anything but
that character itself. -/
theorem lowerChar_special {c d : Char}
    (hd : d = ':' ∨ d = '/' ∨ d = '?' ∨ d = '#' ∨ d = '@')
    (h : lowerChar c = d) : c = d := by
  revert h
  unfold lowerChar
  split <;> intro h <;> first
  | exact h
  | (rcases hd with rfl | rfl | rfl | rfl | rfl <;> exact absurd h (by decide))

/-- The two occurrences of take in splitSch agree between a list and a
longer list sharing that initial segment of length at least two. -/
theorem take_two_append {a : List Char} {t : List Char} {x y : Char}
    (h : a.take 2 = [x, y]) : (a ++ t).take 2 = [x, y] := by
  have hlen : 2 ≤ a.length := by
    have h2 := congrArg List.length h
    rw [List.length_take] at h2
    simp only [List.length_cons, List.length_nil] at h2
    omega
  rw [List.take_append_of_le_length hlen, h]

/-- Unfolding equation of splitSch at a cons. -/
theorem splitSch_cons (c : Char) (rest : List Char) :
    splitSch (c :: rest) =
      if c = ':' ∧ rest.take 2 = ['/', '/'] then some ([], rest.drop 2)
      else
        match splitSch rest with
        | some (a, b) => some (c :: a, b)
        | none => none := rfl

/-- Decomposition of a successful scheme split: the input is the scheme,
"://", and the remainder, and the scheme part itself has no "://". -/
theorem splitSch_some_decomp :
    ∀ {l a b : List Char}, splitSch l = some (a, b) →
      l = a ++ ':' :: '/' :: '/' :: b ∧ splitSch a = none := by
  intro l
  induction l with
  | nil => intro a b h; exact absurd h (by simp [splitSch])
  | cons c rest ih =>
    intro a b h
    rw [splitSch_cons] at h
    split at h
    · rename_i hcond
      rw [Option.some_inj] at h
      have ha : a = [] := (congrArg Prod.fst h).symm
      have hb : b = rest.drop 2 := (congrArg Prod.snd h).symm
      subst ha
      subst hb
      refine ⟨?_, rfl⟩
      simp only [List.nil_append]
      rw [hcond.1]
      have hre : rest = rest.take 2 ++ rest.drop 2 := (List.take_append_drop 2 rest).symm
      conv_lhs => rw [hre, hcond.2]
      rfl
    · rename_i hcond
      cases hs : splitSch rest with
      | none => rw [hs] at h; exact absurd h (by simp)
      | some pr =>
        obtain ⟨a2, b2⟩ := pr
        rw [hs, Option.some_inj] at h
        have ha : a = c :: a2 := (congrArg Prod.fst h).symm
        have hb : b = b2 := (congrArg Prod.snd h).symm
        subst ha
        subst hb
        obtain ⟨hdec, hnone⟩ := ih hs
        constructor
        · rw [List.cons_append, ← hdec]
        · rw [splitSch_cons, if_neg, hnone]
          intro hcond2
          apply hcond
          refine ⟨hcond2.1, ?_⟩
          rw [hdec]
          exact take_two_append hcond2.2

/-- No scheme split in a list means none in any initial segment of it. -/
theorem splitSch_append_none :
    ∀ {a t : List Char}, splitSch (a ++ t) = none → splitSch a = none := by
  intro a
  induction a with
  | nil => intro t _; rfl
  | cons c rest ih =>
    intro t h
    rw [List.cons_append, splitSch_cons] at h
    rw [splitSch_cons]
    split at h
    · exact absurd h (by simp)
    · rename_i hcond
      have hrt : splitSch (rest ++ t) = none := by
        cases hsplit : splitSch (rest ++ t) with
        | none => rfl
        | some pr2 =>
          obtain ⟨a2, b2⟩ := pr2
          rw [hsplit] at h
          exact absurd h (by simp)
      rw [if_neg, ih hrt]
      intro hcond2
      exact hcond ⟨hcond2.1, take_two_append hcond2.2⟩

/-- Appending "://" and a tail after a scheme-split-free part splits at
exactly that point. -/
theorem splitSch_append_sch :
    ∀ {a : List Char}, splitSch a = none →
      ∀ b : List Char, splitSch (a ++ ':' :: '/' :: '/' :: b) = some (a, b) := by
  intro a
  induction a with
  | nil =>
    intro _ b
    simp [splitSch_cons]
  | cons c rest ih =>
    intro h b
    rw [splitSch_cons] at h
    split at h
    · exact absurd h (by simp)
    · rename_i hcond
      have hrest : splitSch rest = none := by
        cases hs : splitSch rest with
        | none => rfl
        | some pr =>
          obtain ⟨a2, b2⟩ := pr
          rw [hs] at h
          exact absurd h (by simp)
      rw [List.cons_append, splitSch_cons, if_neg, ih hrest b]
      intro hcond2
      apply hcond
      refine ⟨hcond2.1, ?_⟩
      match rest, hcond2.2 with
      | [], h2 => exact absurd h2 (by simp [List.take])
      | [d], h2 =>
        have hd : d = '/' := by
          have h3 := congrArg (fun l : List Char => l.take 1) h2
          simpa [List.take] using h3
        subst hd
        exact absurd h2 (by simp [List.take])
      | d :: e :: rest2, h2 =>
        have hde : d = '/' ∧ e = '/' := by
          simp only [List.take, List.cons.injEq] at h2
          exact ⟨h2.1, h2.2.1⟩
        rw [show (d :: e :: rest2).take 2 = [d, e] from rfl, hde.1, hde.2]

/-- A list without colons has no scheme split. -/
theorem splitSch_no_colon :
    ∀ {l : List Char}, (∀ c ∈ l, c ≠ ':') → splitSch l = none := by
  intro l
  induction l with
  | nil => intro _; rfl
  | cons c rest ih =>
    intro h
    rw [splitSch_cons, if_neg, ih (fun d hd => h d (List.mem_cons_of_mem _ hd))]
    intro hcond
    exact h c (List.mem_cons_self _ _) hcond.1

/-- A trailing colon after a colon-free part does not create a scheme
split. -/
theorem splitSch_colon_end :
    ∀ {a : List Char}, (∀ c ∈ a, c ≠ ':') → splitSch (a ++ [':']) = none := by
  intro a
  induction a with
  | nil =>
    intro _
    simp [splitSch_cons, splitSch]
  | cons c rest ih =>
    intro h
    rw [List.cons_append, splitSch_cons, if_neg,
      ih (fun d hd => h d (List.mem_cons_of_mem _ hd))]
    intro hcond
    exact h c (List.mem_cons_self _ _) hcond.1

/-- Members of takeWhile are members satisfying the predicate. -/
theorem mem_takeWhile {p : Char → Bool} {l : List Char} {c : Char}
    (h : c ∈ l.takeWhile p) : c ∈ l ∧ p c = true :=
  ⟨(List.takeWhile_sublist p).subset h, List.mem_takeWhile_imp h⟩

/-- A non-empty takeWhile shares the head of the list. -/
theorem takeWhile_head {p : Char → Bool} {l : List Char}
    (h : l.takeWhile p ≠ []) : (l.takeWhile p).head? = l.head? := by
  cases l with
  | nil => rfl
  | cons c rest =>
    rw [List.takeWhile_cons] at h ⊢
    by_cases hc : p c
    · rw [if_pos hc]
      rfl
    · rw [Bool.not_eq_true] at hc
      rw [hc] at h
      simp at h

/-- Members of afterLastAt are members of the authority other than '@'. -/
theorem mem_afterLastAt {l : List Char} {c : Char} (h : c ∈ afterLastAt l) :
    c ∈ l ∧ c ≠ '@' := by
  unfold afterLastAt at h
  rw [List.mem_reverse] at h
  obtain ⟨hm, hp⟩ := mem_takeWhile h
  exact ⟨List.mem_reverse.mp hm, by simpa using hp⟩

/-- Shape of a dropWhile: empty, or headed by an element failing the
predicate. -/
theorem dropWhile_shape (p : Char → Bool) (l : List Char) :
    l.dropWhile p = [] ∨ ∃ c t, l.dropWhile p = c :: t ∧ p c = false := by
  induction l with
  | nil => exact Or.inl rfl
  | cons a as ih =>
    by_cases hp : p a
    · simpa [List.dropWhile_cons, hp] using ih
    · rw [Bool.not_eq_true] at hp
      exact Or.inr ⟨a, as, by simp [List.dropWhile_cons, hp], hp⟩

/-- What a successful parseHostPort says about the host: non-empty,
lower-case stable, and free of delimiters, colons and at-signs (provided
the authority had no delimiters, as the authority scan guarantees). -/
theorem parseHostPort_facts {auth host port : List Char}
    (h : parseHostPort auth = some (host, port))
    (hauth : ∀ c ∈ auth, isDelim1 c = false) :
    host ≠ [] ∧ host.map lowerChar = host ∧
    ∀ c ∈ host, isDelim1 c = false ∧ c ≠ ':' ∧ c ≠ '@' := by
  unfold parseHostPort at h
  split at h
  · exact absurd h (by simp)
  · rename_i hne
    split at h
    · rw [Option.some_inj] at h
      have hhost : host = ((afterLastAt auth).takeWhile (· != ':')).map lowerChar :=
        (congrArg Prod.fst h).symm
      have hraw : ∀ c ∈ (afterLastAt auth).takeWhile (· != ':'),
          isDelim1 c = false ∧ c ≠ ':' ∧ c ≠ '@' := by
        intro c hc
        obtain ⟨hm1, hp1⟩ := mem_takeWhile hc
        obtain ⟨hm2, hp2⟩ := mem_afterLastAt hm1
        exact ⟨hauth c hm2, by simpa using hp1, hp2⟩
      refine ⟨?_, ?_, ?_⟩
      · rw [hhost]
        intro he
        rw [List.map_eq_nil_iff] at he
        rw [List.isEmpty_iff] at hne
        exact hne he
      · rw [hhost, List.map_map]
        exact List.map_congr_left (fun c _ => lowerChar_lowerChar c)
      · intro c hc
        rw [hhost, List.mem_map] at hc
        obtain ⟨c0, hc0, hlc⟩ := hc
        obtain ⟨hd1, hcol, hat⟩ := hraw c0 hc0
        subst hlc
        refine ⟨?_, ?_, ?_⟩
        · by_contra hbad
          rw [Bool.not_eq_false] at hbad
          have hor : lowerChar c0 = '/' ∨ lowerChar c0 = '?' ∨ lowerChar c0 = '#' := by
            have := hbad
            simp only [isDelim1, Bool.or_eq_true, beq_iff_eq] at this
            tauto
          rcases hor with he | he | he
          · rw [lowerChar_special (by tauto) he] at hd1
            simp [isDelim1] at hd1
          · rw [lowerChar_special (by tauto) he] at hd1
            simp [isDelim1] at hd1
          · rw [lowerChar_special (by tauto) he] at hd1
            simp [isDelim1] at hd1
        · intro he
          exact hcol (lowerChar_special (by tauto) he)
        · intro he
          exact hat (lowerChar_special (by tauto) he)
    · exact absurd h (by simp)

/-- The path parsePQF produces is the defaulted path component. -/
theorem parsePQF_fst (rest2 : List Char) : (parsePQF rest2).1 = pqfPath rest2 := by
  unfold parsePQF
  split <;> rfl

/-- The defaulted path starts with '/', provided the remainder it came from
is empty or delimiter-headed. -/
theorem pqfPath_head {rest2 : List Char}
    (hr : rest2 = [] ∨ ∃ c t, rest2 = c :: t ∧ isDelim1 c = true) :
    (pqfPath rest2).head? = some '/' := by
  unfold pqfPath
  split
  · rfl
  · rename_i hne
    rw [List.isEmpty_iff] at hne
    rw [takeWhile_head hne]
    rcases hr with hr | ⟨c, t, hr, hd⟩
    · rw [hr] at hne
      exact absurd rfl hne
    · rw [hr]
      have hmem : c ∈ rest2.takeWhile (fun c => !(isDelim2 c)) := by
        rw [hr, List.takeWhile_cons]
        split
        · exact List.mem_cons_self _ _
        · rename_i hcontra
          rw [hr, List.takeWhile_cons, if_neg hcontra] at hne
          exact absurd rfl hne
      have hnd2 : isDelim2 c = false := by
        simpa using (mem_takeWhile hmem).2
      have hc : c = '/' := by
        revert hd hnd2
        simp [isDelim1, isDelim2]
        tauto
      rw [hc]
      rfl

/-- Every character of the defaulted path avoids '?' and '#'. -/
theorem pqfPath_chars (rest2 : List Char) :
    ∀ c ∈ pqfPath rest2, isDelim2 c = false := by
  unfold pqfPath
  split
  · intro c hc
    rw [List.mem_singleton] at hc
    rw [hc]
    rfl
  · intro c hc
    simpa using (mem_takeWhile hc).2

/-- Characters of a parsed query never include '#'. -/
theorem parsePQF_query_chars (rest2 : List Char) :
    ∀ q, (parsePQF rest2).2.1 = some q → ∀ c ∈ q, c ≠ '#' := by
  unfold parsePQF
  split
  · rename_i qs heq
    intro q hq c hc
    have hq2 : some (qs.takeWhile (· != '#')) = some q := hq
    rw [Option.some_inj] at hq2
    subst hq2
    simpa using (mem_takeWhile hc).2
  · rename_i fs heq
    intro q hq
    exact absurd (show (none : Option (List Char)) = some q from hq) (by simp)
  · intro q hq
    exact absurd (show (none : Option (List Char)) = some q from hq) (by simp)

/-- Inversion of a successful parse: the component facts every
reconstruction argument needs. -/
theorem parseUrl_some_facts {l : List Char} {o : UrlObj}
    (h : parseUrl l = some o) :
    (o.scheme = "http".data ∨ o.scheme = "https".data) ∧
    o.host ≠ [] ∧ o.host.map lowerChar = o.host ∧
    (∀ c ∈ o.host, isDelim1 c = false ∧ c ≠ ':' ∧ c ≠ '@') ∧
    o.path.head? = some '/' ∧ (∀ c ∈ o.path, isDelim2 c = false) ∧
    (∀ q, o.query = some q → ∀ c ∈ q, c ≠ '#') := by
  unfold parseUrl at h
  split at h
  · exact absurd h (by simp)
  · rename_i schRaw rest heq
    split at h
    · rename_i hscheme
      split at h
      · exact absurd h (by simp)
      · rename_i host port hhp
        rw [Option.some_inj] at h
        subst h
        have hauth : ∀ c ∈ rest.takeWhile (fun c => !(isDelim1 c)),
            isDelim1 c = false := by
          intro c hc
          simpa using (mem_takeWhile hc).2
        obtain ⟨h1, h2, h3⟩ := parseHostPort_facts hhp hauth
        have hshape := dropWhile_shape (fun c => !(isDelim1 c)) rest
        have hr : rest.dropWhile (fun c => !(isDelim1 c)) = [] ∨
            ∃ c t, rest.dropWhile (fun c => !(isDelim1 c)) = c :: t ∧
              isDelim1 c = true := by
          rcases hshape with hs | ⟨c, t, hs, hp⟩
          · exact Or.inl hs
          · exact Or.inr ⟨c, t, hs, by simpa using hp⟩
        refine ⟨hscheme, h1, h2, h3, ?_, ?_, ?_⟩
        · show ((parsePQF _).1).head? = some '/'
          rw [parsePQF_fst]
          exact pqfPath_head hr
        · show ∀ c ∈ (parsePQF _).1, isDelim2 c = false
          rw [parsePQF_fst]
          exact pqfPath_chars _
        · exact parsePQF_query_chars _
    · exact absurd h (by simp)

/-- A list without at-signs is its own after-last-at part. -/
theorem afterLastAt_of_no_at {l : List Char} (h : ∀ c ∈ l, c ≠ '@') :
    afterLastAt l = l := by
  unfold afterLastAt
  rw [takeWhile_of_all, List.reverse_reverse]
  intro c hc
  simpa using h c (List.mem_reverse.mp hc)

/-- Parsing an authority that is exactly a clean host yields that host and
no port. -/
theorem parseHostPort_self {H : List Char} (hh : H ≠ [])
    (hhc : ∀ c ∈ H, isDelim1 c = false ∧ c ≠ ':' ∧ c ≠ '@')
    (hlow : H.map lowerChar = H) :
    parseHostPort H = some (H, []) := by
  unfold parseHostPort
  rw [afterLastAt_of_no_at (fun c hc => (hhc c hc).2.2)]
  rw [takeWhile_of_all (fun c hc => by simpa using (hhc c hc).2.1)]
  rw [dropWhile_of_all (fun c hc => by simpa using (hhc c hc).2.1)]
  rw [if_neg (by simpa [List.isEmpty_iff] using hh)]
  rw [if_pos (by simp)]
  rw [hlow]
  rfl

/-- Parsing a string assembled from a valid scheme, a clean host and a
remainder that is empty or delimiter-headed recovers exactly those
components, with the path, query and fragment read from the remainder. -/
theorem parseUrl_build {sch H tl : List Char}
    (hs : sch = "http".data ∨ sch = "https".data)
    (hh : H ≠ [])
    (hhc : ∀ c ∈ H, isDelim1 c = false ∧ c ≠ ':' ∧ c ≠ '@')
    (hlow : H.map lowerChar = H)
    (htl : tl = [] ∨ ∃ c t, tl = c :: t ∧ isDelim1 c = true) :
    parseUrl (sch ++ ':' :: '/' :: '/' :: (H ++ tl)) =
      some ⟨sch, H, [], (parsePQF tl).1, (parsePQF tl).2.1, (parsePQF tl).2.2⟩ := by
  have hschNone : splitSch sch = none := by
    rcases hs with rfl | rfl <;> decide
  have hschLow : sch.map lowerChar = sch := by
    rcases hs with rfl | rfl <;> decide
  have htake : (H ++ tl).takeWhile (fun c => !(isDelim1 c)) = H := by
    rw [takeWhile_append_of_all (fun c hc => by simpa using (hhc c hc).1)]
    rcases htl with rfl | ⟨c, t, rfl, hd⟩
    · simp
    · rw [List.takeWhile_cons, if_neg (by simpa using hd)]
      simp
  have hdrop : (H ++ tl).dropWhile (fun c => !(isDelim1 c)) = tl := by
    rw [dropWhile_append_of_all (fun c hc => by simpa using (hhc c hc).1)]
    rcases htl with rfl | ⟨c, t, rfl, hd⟩
    · rfl
    · rw [List.dropWhile_cons, if_neg (by simpa using hd)]
  unfold parseUrl
  rw [splitSch_append_sch hschNone]
  dsimp only
  rw [htake, hdrop, hschLow, parseHostPort_self hh hhc hlow]
  dsimp only
  rw [if_pos hs]

/-- parsePQF of a remainder free of '?' and '#'. -/
theorem parsePQF_no_delim2 {tl : List Char} (h : ∀ c ∈ tl, isDelim2 c = false) :
    parsePQF tl = (pqfPath tl, none, none) := by
  unfold parsePQF
  rw [dropWhile_of_all (fun c hc => by simpa using h c hc)]

/-- pqfPath of a non-empty remainder free of '?' and '#'. -/
theorem pqfPath_of_all {tl : List Char} (h : ∀ c ∈ tl, isDelim2 c = false)
    (hne : tl ≠ []) : pqfPath tl = tl := by
  unfold pqfPath
  rw [takeWhile_of_all (fun c hc => by simpa using h c hc)]
  rw [if_neg (by simpa [List.isEmpty_iff] using hne)]

/-- parsePQF when the remainder's delimiter part starts with '?'. -/
theorem parsePQF_query_arm {rest2 qs : List Char}
    (h : rest2.dropWhile (fun c => !(isDelim2 c)) = '?' :: qs) :
    parsePQF rest2 = (pqfPath rest2, some (qs.takeWhile (· != '#')),
      match qs.dropWhile (· != '#') with | _ :: fs => some fs | [] => none) := by
  unfold parsePQF
  rw [h]
  rfl

/-- The canonical string of a well-parsed URL object re-normalizes to
itself, provided its query is not a non-empty run of slashes. -/
theorem normChars_recon_fixed {o : UrlObj}
    (hs : o.scheme = "http".data ∨ o.scheme = "https".data)
    (hh : o.host ≠ []) (hlow : o.host.map lowerChar = o.host)
    (hhc : ∀ c ∈ o.host, isDelim1 c = false ∧ c ≠ ':' ∧ c ≠ '@')
    (hph : o.path.head? = some '/')
    (hpc : ∀ c ∈ o.path, isDelim2 c = false)
    (hqc : ∀ q, o.query = some q → ∀ c ∈ q, c ≠ '#')
    (hgood : ∀ q, o.query = some q → q = [] ∨ ∃ d ∈ q, d ≠ '/') :
    normChars (rstripSlash (reconChars o)) = rstripSlash (reconChars o) := by
  have hHnoslash : ∀ c ∈ o.host, c ≠ '/' := by
    intro c hc he
    have := (hhc c hc).1
    rw [he] at this
    simp [isDelim1] at this
  have hHstrip : rstripSlash o.host = o.host :=
    rstripSlash_of_no_slash hHnoslash
  have hHne : rstripSlash o.host ≠ [] := by
    rw [hHstrip]
    exact hh
  have hbase : ∀ X : List Char, rstripSlash (X ++ o.host) = X ++ o.host := by
    intro X
    rw [rstripSlash_append hHne, hHstrip]
  have hQcase : (match o.query with | some (c :: q) => '?' :: c :: q | _ => []) = [] ∨
      ∃ q, o.query = some q ∧ q ≠ [] ∧ (∃ d ∈ q, d ≠ '/') ∧
        (match o.query with | some (c :: q) => '?' :: c :: q | _ => []) = '?' :: q := by
    cases hq : o.query with
    | none => exact Or.inl rfl
    | some q =>
      cases q with
      | nil => exact Or.inl rfl
      | cons c qt =>
        rcases hgood (c :: qt) hq with he | hd
        · exact absurd he (by simp)
        · exact Or.inr ⟨c :: qt, rfl, by simp, hd, rfl⟩
  have hrecon : reconChars o =
      o.scheme ++ ':' :: '/' :: '/' :: (o.host ++ (o.path ++
        (match o.query with | some (c :: q) => '?' :: c :: q | _ => []))) := by
    unfold reconChars
    simp [List.append_assoc]
  rcases hQcase with hQ | ⟨q, hq, hqne, ⟨d, hdm, hdne⟩, hQ⟩
  · -- no (truthy) query: the strip acts on the path
    rw [hrecon, hQ, List.append_nil]
    by_cases hP : rstripSlash o.path = []
    · -- all-slash path: the strip eats the whole path
      have hall : ∀ c ∈ o.path, c = '/' := rstripSlash_eq_nil_iff.mp hP
      have hv : rstripSlash (o.scheme ++ ':' :: '/' :: '/' :: (o.host ++ o.path)) =
          o.scheme ++ ':' :: '/' :: '/' :: (o.host ++ ([] : List Char)) := by
        rw [List.append_nil]
        have hshape : o.scheme ++ ':' :: '/' :: '/' :: (o.host ++ o.path) =
            (o.scheme ++ ':' :: '/' :: '/' :: o.host) ++ o.path := by
          simp [List.append_assoc]
        rw [hshape, rstripSlash_append_slashes hall]
        have hshape2 : o.scheme ++ ':' :: '/' :: '/' :: o.host =
            (o.scheme ++ [':', '/', '/']) ++ o.host := by
          simp [List.append_assoc]
        rw [hshape2, hbase, ← hshape2]
      rw [hv]
      unfold normChars
      rw [parseUrl_build hs hh hhc hlow (Or.inl rfl)]
      rw [show parsePQF ([] : List Char) =
        (['/'], (none : Option (List Char)), (none : Option (List Char))) from rfl]
      dsimp only
      have hrecon2 : reconChars ⟨o.scheme, o.host, [], ['/'], none, none⟩ =
          (o.scheme ++ ':' :: '/' :: '/' :: o.host) ++ ['/'] := by
        unfold reconChars
        simp [List.append_assoc]
      rw [hrecon2, rstripSlash_append_slash]
      have hshape2 : o.scheme ++ ':' :: '/' :: '/' :: o.host =
          (o.scheme ++ [':', '/', '/']) ++ o.host := by
        simp [List.append_assoc]
      rw [hshape2, hbase]
      simp [List.append_assoc]
    · -- the stripped path survives, delimiter-headed
      have hpc2 : ∀ c ∈ rstripSlash o.path, isDelim2 c = false :=
        fun c hc => hpc c (mem_of_mem_rstripSlash hc)
      have hhead : (rstripSlash o.path).head? = some '/' := by
        rw [rstripSlash_head hP]
        exact hph
      have hcons : ∃ t, rstripSlash o.path = '/' :: t := by
        cases hc : rstripSlash o.path with
        | nil => exact absurd hc hP
        | cons c t =>
          rw [hc] at hhead
          simp only [List.head?] at hhead
          exact ⟨t, by rw [Option.some_inj] at hhead; rw [hhead]⟩
      have hv : rstripSlash (o.scheme ++ ':' :: '/' :: '/' :: (o.host ++ o.path)) =
          o.scheme ++ ':' :: '/' :: '/' :: (o.host ++ rstripSlash o.path) := by
        have hshape : o.scheme ++ ':' :: '/' :: '/' :: (o.host ++ o.path) =
            (o.scheme ++ ':' :: '/' :: '/' :: o.host) ++ o.path := by
          simp [List.append_assoc]
        rw [hshape, rstripSlash_append hP]
        simp [List.append_assoc]
      rw [hv]
      unfold normChars
      obtain ⟨t, ht⟩ := hcons
      rw [parseUrl_build hs hh hhc hlow (Or.inr ⟨'/', t, ht, by decide⟩)]
      rw [parsePQF_no_delim2 hpc2, pqfPath_of_all hpc2 hP]
      dsimp only
      have hrecon2 : reconChars ⟨o.scheme, o.host, [], rstripSlash o.path,
          none, none⟩ =
          (o.scheme ++ ':' :: '/' :: '/' :: o.host) ++ rstripSlash o.path := by
        unfold reconChars
        simp [List.append_assoc]
      rw [hrecon2, rstripSlash_append_rstrip hP]
      simp [List.append_assoc]
  · -- truthy query with a non-slash character: the strip acts on the query
    have hq2 : rstripSlash q ≠ [] := rstripSlash_ne_nil hdm hdne
    have hQstrip : rstripSlash ('?' :: q) = '?' :: rstripSlash q := by
      have : ('?' : Char) :: q = ['?'] ++ q := rfl
      rw [this, rstripSlash_append hq2]
      rfl
    have hQne : rstripSlash ('?' :: q) ≠ [] := by
      rw [hQstrip]
      simp
    have hPne : o.path ≠ [] := by
      intro he
      rw [he] at hph
      exact absurd hph (by simp)
    have hv : rstripSlash (o.scheme ++ ':' :: '/' :: '/' :: (o.host ++
        (o.path ++ (match o.query with | some (c :: q) => '?' :: c :: q | _ => [])))) =
        o.scheme ++ ':' :: '/' :: '/' :: (o.host ++
          (o.path ++ '?' :: rstripSlash q)) := by
      rw [hQ]
      have hshape : o.scheme ++ ':' :: '/' :: '/' :: (o.host ++ (o.path ++ '?' :: q)) =
          (o.scheme ++ ':' :: '/' :: '/' :: o.host ++ o.path) ++ ('?' :: q) := by
        simp [List.append_assoc]
      rw [hshape, rstripSlash_append hQne, hQstrip]
      simp [List.append_assoc]
    rw [hrecon, hv]
    unfold normChars
    have hPhd : ∃ t, o.path = '/' :: t := by
      cases hc : o.path with
      | nil => exact absurd hc hPne
      | cons c t =>
        rw [hc] at hph
        simp only [List.head?] at hph
        exact ⟨t, by rw [Option.some_inj] at hph; rw [hph]⟩
    obtain ⟨t, ht⟩ := hPhd
    have htl : o.path ++ '?' :: rstripSlash q = '/' :: (t ++ '?' :: rstripSlash q) := by
      rw [ht]
      rfl
    rw [parseUrl_build hs hh hhc hlow
      (Or.inr ⟨'/', t ++ '?' :: rstripSlash q, htl, by decide⟩)]
    have hq3 : ∀ c ∈ rstripSlash q, c ≠ '#' :=
      fun c hc => hqc q hq c (mem_of_mem_rstripSlash hc)
    have hdw : (o.path ++ '?' :: rstripSlash q).dropWhile
        (fun c => !(isDelim2 c)) = '?' :: rstripSlash q := by
      rw [dropWhile_append_of_all (fun c hc => by simpa using hpc c hc)]
      rw [List.dropWhile_cons, if_neg (by simp [isDelim2])]
    have htq : (rstripSlash q).takeWhile (· != '#') = rstripSlash q :=
      takeWhile_of_all (fun c hc => by simpa using hq3 c hc)
    have hdq : (rstripSlash q).dropWhile (· != '#') = [] :=
      dropWhile_of_all (fun c hc => by simpa using hq3 c hc)
    have hpp : pqfPath (o.path ++ '?' :: rstripSlash q) = o.path := by
      unfold pqfPath
      have htp : (o.path ++ '?' :: rstripSlash q).takeWhile
          (fun c => !(isDelim2 c)) = o.path := by
        rw [takeWhile_append_of_all (fun c hc => by simpa using hpc c hc)]
        rw [List.takeWhile_cons, if_neg (by simp [isDelim2])]
        simp
      rw [htp, if_neg (by simpa [List.isEmpty_iff] using hPne)]
    have hPQF : parsePQF (o.path ++ '?' :: rstripSlash q) =
        (o.path, some (rstripSlash q), none) := by
      rw [parsePQF_query_arm hdw, htq, hdq, hpp]
    rw [hPQF]
    dsimp only
    have hrecon2 : reconChars ⟨o.scheme, o.host, [], o.path,
        some (rstripSlash q), none⟩ =
        ((o.scheme ++ ':' :: '/' :: '/' :: o.host ++ o.path) ++ ['?']) ++
          rstripSlash q := by
      unfold reconChars
      cases hrq : rstripSlash q with
      | nil => exact absurd hrq hq2
      | cons c ct => simp [List.append_assoc]
    rw [hrecon2, rstripSlash_append_rstrip hq2]
    simp [List.append_assoc]

/-- Characters of a raw scheme that lower-cases to http or https. -/
theorem schRaw_chars {schRaw : List Char}
    (hsch : schRaw.map lowerChar = "http".data ∨ schRaw.map lowerChar = "https".data) :
    ∀ c ∈ schRaw, c ≠ '#' ∧ c ≠ ':' ∧ c ≠ '/' := by
  intro c hc
  have hm : lowerChar c ∈ "http".data ∨ lowerChar c ∈ "https".data := by
    rcases hsch with hsch | hsch
    · exact Or.inl (hsch ▸ List.mem_map_of_mem lowerChar hc)
    · exact Or.inr (hsch ▸ List.mem_map_of_mem lowerChar hc)
  refine ⟨?_, ?_, ?_⟩ <;> rintro rfl <;>
    (rcases hm with hm | hm <;> exact absurd hm (by decide))

/-- When the whole input fails to parse, the fallback string (fragment
stripped, trailing slashes removed) fails to parse as well. -/
theorem parseUrl_fallback_none {l : List Char} (h : parseUrl l = none) :
    parseUrl (rstripSlash (l.takeWhile (· != '#'))) = none := by
  have hvl : ∃ w, l = rstripSlash (l.takeWhile (· != '#')) ++ w := by
    obtain ⟨n, hn⟩ := rstripSlash_decomp (l.takeWhile (· != '#'))
    refine ⟨List.replicate n '/' ++ l.dropWhile (· != '#'), ?_⟩
    conv_lhs => rw [← List.takeWhile_append_dropWhile (p := (· != '#')) (l := l)]
    conv_lhs => rw [hn]
    simp [List.append_assoc]
  obtain ⟨w, hw⟩ := hvl
  unfold parseUrl at h
  cases hsl : splitSch l with
  | none =>
    have hnv : splitSch (rstripSlash (l.takeWhile (· != '#'))) = none :=
      splitSch_append_none (t := w) (hw ▸ hsl)
    unfold parseUrl
    rw [hnv]
  | some pr =>
    obtain ⟨schRaw, rest⟩ := pr
    rw [hsl] at h
    dsimp only at h
    obtain ⟨hdec, hschNone⟩ := splitSch_some_decomp hsl
    by_cases hsch : schRaw.map lowerChar = "http".data ∨
        schRaw.map lowerChar = "https".data
    · -- the scheme was fine, so the authority must have been rejected
      rw [if_pos hsch] at h
      have hhp : parseHostPort (rest.takeWhile (fun c => !(isDelim1 c))) = none := by
        cases hhp2 : parseHostPort (rest.takeWhile (fun c => !(isDelim1 c))) with
        | none => rfl
        | some pr2 =>
          obtain ⟨ho, po⟩ := pr2
          rw [hhp2] at h
          exact absurd h (by simp)
      have hschCh := schRaw_chars hsch
      have ht2 : l.takeWhile (· != '#') =
          schRaw ++ ':' :: '/' :: '/' :: (rest.takeWhile (· != '#')) := by
        rw [hdec]
        rw [takeWhile_append_of_all (fun c hc => by simpa using (hschCh c hc).1)]
        simp [List.takeWhile_cons]
      have hauthCh : ∀ c ∈ rest.takeWhile (fun c => !(isDelim1 c)),
          isDelim1 c = false :=
        fun c hc => by simpa using (mem_takeWhile hc).2
      have hauthHash : ∀ c ∈ rest.takeWhile (fun c => !(isDelim1 c)), c ≠ '#' := by
        intro c hc he
        have := hauthCh c hc
        rw [he] at this
        simp [isDelim1] at this
      have hauthSlash : ∀ c ∈ rest.takeWhile (fun c => !(isDelim1 c)), c ≠ '/' := by
        intro c hc he
        have := hauthCh c hc
        rw [he] at this
        simp [isDelim1] at this
      have ht3 : rest.takeWhile (· != '#') =
          rest.takeWhile (fun c => !(isDelim1 c)) ++
            (rest.dropWhile (fun c => !(isDelim1 c))).takeWhile (· != '#') := by
        conv_lhs => rw [← List.takeWhile_append_dropWhile
          (p := (fun c => !(isDelim1 c))) (l := rest)]
        rw [takeWhile_append_of_all (fun c hc => by simpa using hauthHash c hc)]
      by_cases hT : rstripSlash (rest.takeWhile (fun c => !(isDelim1 c)) ++
          (rest.dropWhile (fun c => !(isDelim1 c))).takeWhile (· != '#')) = []
      · -- everything after "://" stripped away: parse fails at the split
        have hv2 : rstripSlash (l.takeWhile (· != '#')) = schRaw ++ [':'] := by
          rw [ht2, ht3]
          have hall := rstripSlash_eq_nil_iff.mp hT
          have hshape : schRaw ++ ':' :: '/' :: '/' ::
              (rest.takeWhile (fun c => !(isDelim1 c)) ++
                (rest.dropWhile (fun c => !(isDelim1 c))).takeWhile (· != '#')) =
              (schRaw ++ [':']) ++ ('/' :: '/' ::
                (rest.takeWhile (fun c => !(isDelim1 c)) ++
                  (rest.dropWhile (fun c => !(isDelim1 c))).takeWhile (· != '#'))) := by
            simp [List.append_assoc]
          rw [hshape, rstripSlash_append_slashes ?all]
          case all =>
            intro c hc
            rcases List.mem_cons.mp hc with rfl | hc
            · rfl
            · rcases List.mem_cons.mp hc with rfl | hc
              · rfl
              · exact hall c hc
          exact rstripSlash_append_of_ne (by decide) schRaw
        rw [hv2]
        unfold parseUrl
        rw [splitSch_colon_end (fun c hc => (hschCh c hc).2.1)]
      · -- the authority survives the strip unchanged, so the same failure
        have hv2 : rstripSlash (l.takeWhile (· != '#')) =
            schRaw ++ ':' :: '/' :: '/' ::
              rstripSlash (rest.takeWhile (fun c => !(isDelim1 c)) ++
                (rest.dropWhile (fun c => !(isDelim1 c))).takeWhile (· != '#')) := by
          rw [ht2, ht3]
          have hshape : schRaw ++ ':' :: '/' :: '/' ::
              (rest.takeWhile (fun c => !(isDelim1 c)) ++
                (rest.dropWhile (fun c => !(isDelim1 c))).takeWhile (· != '#')) =
              (schRaw ++ [':', '/', '/']) ++
                (rest.takeWhile (fun c => !(isDelim1 c)) ++
                  (rest.dropWhile (fun c => !(isDelim1 c))).takeWhile (· != '#')) := by
            simp [List.append_assoc]
          rw [hshape, rstripSlash_append hT]
          simp [List.append_assoc]
        have hauthv : (rstripSlash (rest.takeWhile (fun c => !(isDelim1 c)) ++
            (rest.dropWhile (fun c => !(isDelim1 c))).takeWhile
              (· != '#'))).takeWhile (fun c => !(isDelim1 c)) =
            rest.takeWhile (fun c => !(isDelim1 c)) := by
          have hstripA : rstripSlash (rest.takeWhile (fun c => !(isDelim1 c))) =
              rest.takeWhile (fun c => !(isDelim1 c)) :=
            rstripSlash_of_no_slash hauthSlash
          have htwA : (rest.takeWhile (fun c => !(isDelim1 c))).takeWhile
              (fun c => !(isDelim1 c)) = rest.takeWhile (fun c => !(isDelim1 c)) :=
            takeWhile_of_all (fun c hc => by simpa using hauthCh c hc)
          rcases dropWhile_shape (fun c => !(isDelim1 c)) rest with hd | ⟨c, tt, hd, hp⟩
          · rw [hd]
            show (rstripSlash (rest.takeWhile (fun c => !(isDelim1 c)) ++
              List.takeWhile (· != '#') [])).takeWhile (fun c => !(isDelim1 c)) = _
            rw [show List.takeWhile (· != '#') ([] : List Char) = [] from rfl,
              List.append_nil, hstripA, htwA]
          · have hdelim : isDelim1 c = true := by simpa using hp
            by_cases hch : c = '#'
            · rw [hd, List.takeWhile_cons, if_neg (by rw [hch]; simp)]
              rw [List.append_nil, hstripA, htwA]
            · rw [hd, List.takeWhile_cons, if_pos (by simpa using hch)]
              by_cases hT3 : rstripSlash (c :: tt.takeWhile (· != '#')) = []
              · rw [rstripSlash_append_slashes (rstripSlash_eq_nil_iff.mp hT3),
                  hstripA, htwA]
              · rw [rstripSlash_append hT3]
                rw [takeWhile_append_of_all (fun d hdm => by simpa using hauthCh d hdm)]
                have hhd : (rstripSlash (c :: tt.takeWhile (· != '#'))).head? =
                    some c := by
                  rw [rstripSlash_head hT3]
                  rfl
                cases hr3 : rstripSlash (c :: tt.takeWhile (· != '#')) with
                | nil => exact absurd hr3 hT3
                | cons x xs =>
                  rw [hr3] at hhd
                  simp only [List.head?] at hhd
                  rw [Option.some_inj] at hhd
                  rw [List.takeWhile_cons, if_neg (by rw [hhd]; simpa using hdelim)]
                  simp
        unfold parseUrl
        rw [hv2, splitSch_append_sch hschNone]
        dsimp only
        rw [if_pos hsch, hauthv, hhp]
    · -- invalid scheme: the fallback splits (if at all) at the same scheme
      cases hsv : splitSch (rstripSlash (l.takeWhile (· != '#'))) with
      | none =>
        unfold parseUrl
        rw [hsv]
      | some pr2 =>
        obtain ⟨a2, b2⟩ := pr2
        obtain ⟨hdec2, hnone2⟩ := splitSch_some_decomp hsv
        have hsl2 : splitSch l = some (a2, b2 ++ w) := by
          rw [hw, hdec2]
          have hshape : (a2 ++ ':' :: '/' :: '/' :: b2) ++ w =
              a2 ++ ':' :: '/' :: '/' :: (b2 ++ w) := by
            simp [List.append_assoc]
          rw [hshape]
          exact splitSch_append_sch hnone2 _
        rw [hsl] at hsl2
        rw [Option.some_inj] at hsl2
        have ha2 : schRaw = a2 := congrArg Prod.fst hsl2
        unfold parseUrl
        rw [hsv]
        dsimp only
        rw [if_neg (ha2 ▸ hsch)]

/-- parsePQF when the remainder's delimiter part starts with '#'. -/
theorem parsePQF_frag_arm {rest2 fs : List Char}
    (h : rest2.dropWhile (fun c => !(isDelim2 c)) = '#' :: fs) :
    parsePQF rest2 = (pqfPath rest2, none, some fs) := by
  unfold parsePQF
  rw [h]
  rfl

/-- pqfPath only depends on the takeWhile part. -/
theorem pqfPath_congr {a b : List Char}
    (h : a.takeWhile (fun c => !(isDelim2 c)) = b.takeWhile (fun c => !(isDelim2 c))) :
    pqfPath a = pqfPath b := by
  unfold pqfPath
  rw [h]

/-- Appending a trailing slash to a parseable URL parses again, with the
slash landing in the fragment, the query, or the path (in that order of
availability). -/
theorem parseUrl_append_slash {l : List Char} {o : UrlObj}
    (h : parseUrl l = some o) :
    ∃ o2, parseUrl (l ++ ['/']) = some o2 ∧ o2.scheme = o.scheme ∧
      o2.host = o.host ∧
      ((∃ f, o.fragment = some f ∧ o2.path = o.path ∧ o2.query = o.query) ∨
       (o.fragment = none ∧ ∃ q, o.query = some q ∧ o2.path = o.path ∧
         o2.query = some (q ++ ['/'])) ∨
       (o.fragment = none ∧ o.query = none ∧ o2.query = none ∧
         (o2.path = o.path ∨ o2.path = o.path ++ ['/']))) := by
  unfold parseUrl at h
  split at h
  · exact absurd h (by simp)
  · rename_i schRaw rest heq
    split at h
    · rename_i hsch
      split at h
      · exact absurd h (by simp)
      · rename_i host port hhp
        rw [Option.some_inj] at h
        obtain ⟨hdec, hschNone⟩ := splitSch_some_decomp heq
        have hsplit2 : splitSch (l ++ ['/']) = some (schRaw, rest ++ ['/']) := by
          rw [hdec]
          have hshape : (schRaw ++ ':' :: '/' :: '/' :: rest) ++ ['/'] =
              schRaw ++ ':' :: '/' :: '/' :: (rest ++ ['/']) := by
            simp [List.append_assoc]
          rw [hshape]
          exact splitSch_append_sch hschNone _
        rcases dropWhile_shape (fun c => !(isDelim1 c)) rest with hd | ⟨c, tt, hd, hp⟩
        · -- no delimiter in rest at all: the slash starts the path part
          have hall : ∀ c ∈ rest, (fun c => !(isDelim1 c)) c = true := by
            intro c hc
            by_contra hbad
            rw [List.dropWhile_eq_nil_iff] at hd
            exact hbad (hd c hc)
          have htk : rest.takeWhile (fun c => !(isDelim1 c)) = rest :=
            takeWhile_of_all hall
          have htk2 : (rest ++ ['/']).takeWhile (fun c => !(isDelim1 c)) = rest := by
            rw [takeWhile_append_of_all hall]
            simp [List.takeWhile_cons, isDelim1]
          have hdr2 : (rest ++ ['/']).dropWhile (fun c => !(isDelim1 c)) = ['/'] := by
            rw [dropWhile_append_of_all hall]
            simp [List.dropWhile_cons, isDelim1]
          refine ⟨⟨schRaw.map lowerChar, host, port, (parsePQF ['/']).1,
            (parsePQF ['/']).2.1, (parsePQF ['/']).2.2⟩, ?_, ?_, ?_, ?_⟩
          · unfold parseUrl
            rw [hsplit2]
            dsimp only
            rw [if_pos hsch, htk2, hdr2]
            rw [htk] at hhp
            rw [hhp]
          · rw [← h]
          · rw [← h]
          · refine Or.inr (Or.inr ⟨?_, ?_, ?_, ?_⟩)
            · rw [← h]
              show (parsePQF (rest.dropWhile (fun c => !(isDelim1 c)))).2.2 = none
              rw [hd]
              rfl
            · rw [← h]
              show (parsePQF (rest.dropWhile (fun c => !(isDelim1 c)))).2.1 = none
              rw [hd]
              rfl
            · rfl
            · left
              rw [← h]
              show (parsePQF ['/']).1 =
                (parsePQF (rest.dropWhile (fun c => !(isDelim1 c)))).1
              rw [hd]
              rfl
        · -- rest contains a delimiter: authority unchanged, slash appended
          -- to the path remainder
          have hdne : rest.dropWhile (fun c => !(isDelim1 c)) ≠ [] := by
            rw [hd]
            simp
          have htk2 : (rest ++ ['/']).takeWhile (fun c => !(isDelim1 c)) =
              rest.takeWhile (fun c => !(isDelim1 c)) :=
            takeWhile_append_of_stop hdne _
          have hdr2 : (rest ++ ['/']).dropWhile (fun c => !(isDelim1 c)) =
              rest.dropWhile (fun c => !(isDelim1 c)) ++ ['/'] :=
            dropWhile_append_of_stop hdne _
          refine ⟨⟨schRaw.map lowerChar, host, port,
            (parsePQF (rest.dropWhile (fun c => !(isDelim1 c)) ++ ['/'])).1,
            (parsePQF (rest.dropWhile (fun c => !(isDelim1 c)) ++ ['/'])).2.1,
            (parsePQF (rest.dropWhile (fun c => !(isDelim1 c)) ++ ['/'])).2.2⟩,
            ?_, ?_, ?_, ?_⟩
          · unfold parseUrl
            rw [hsplit2]
            dsimp only
            rw [if_pos hsch, htk2, hdr2, hhp]
          · rw [← h]
          · rw [← h]
          · -- analyze where the slash lands, by the shape of the pqf part
            rw [← h]
            dsimp only
            rcases dropWhile_shape (fun c => !(isDelim2 c))
              (rest.dropWhile (fun c => !(isDelim1 c))) with hd2 | ⟨e, et, hd2, hp2⟩
            · -- no '?' or '#': slash extends the path
              have hall2 : ∀ c ∈ rest.dropWhile (fun c => !(isDelim1 c)),
                  (fun c => !(isDelim2 c)) c = true := by
                intro c hc
                by_contra hbad
                rw [List.dropWhile_eq_nil_iff] at hd2
                exact hbad (hd2 c hc)
              have hq1 : parsePQF (rest.dropWhile (fun c => !(isDelim1 c))) =
                  (pqfPath (rest.dropWhile (fun c => !(isDelim1 c))), none, none) :=
                parsePQF_no_delim2 (fun c hc => by simpa using hall2 c hc)
              have htka : (rest.dropWhile (fun c => !(isDelim1 c)) ++
                  ['/']).takeWhile (fun c => !(isDelim2 c)) =
                  rest.dropWhile (fun c => !(isDelim1 c)) ++ ['/'] := by
                rw [takeWhile_append_of_all hall2]
                simp [List.takeWhile_cons, isDelim2]
              have hq2 : parsePQF (rest.dropWhile (fun c => !(isDelim1 c)) ++
                  ['/']) = (rest.dropWhile (fun c => !(isDelim1 c)) ++ ['/'],
                    none, none) := by
                have hdw2 : (rest.dropWhile (fun c => !(isDelim1 c)) ++
                    ['/']).dropWhile (fun c => !(isDelim2 c)) = [] := by
                  rw [dropWhile_append_of_all hall2]
                  simp [List.dropWhile_cons, isDelim2]
                rw [parsePQF_no_delim2]
                · rw [show pqfPath (rest.dropWhile (fun c => !(isDelim1 c)) ++
                    ['/']) = rest.dropWhile (fun c => !(isDelim1 c)) ++ ['/'] from ?_]
                  unfold pqfPath
                  rw [htka, if_neg (by simp [List.isEmpty_iff])]
                · intro c hc
                  rcases List.mem_append.mp hc with hc | hc
                  · have := hall2 c hc
                    simpa using this
                  · rw [List.mem_singleton] at hc
                    rw [hc]
                    rfl
              refine Or.inr (Or.inr ⟨?_, ?_, ?_, ?_⟩)
              · rw [hq1]
              · rw [hq1]
              · rw [hq2]
              · right
                rw [hq1, hq2]
                dsimp only
                unfold pqfPath
                rw [takeWhile_of_all hall2,
                  if_neg (by simpa [List.isEmpty_iff] using hdne)]
            · -- a '?' or '#' is present
              have hdelim2 : isDelim2 e = true := by simpa using hp2
              have hpq : pqfPath (rest.dropWhile (fun c => !(isDelim1 c)) ++ ['/']) =
                  pqfPath (rest.dropWhile (fun c => !(isDelim1 c))) :=
                pqfPath_congr (takeWhile_append_of_stop (by rw [hd2]; simp) _)
              have he2 : e = '?' ∨ e = '#' := by
                revert hdelim2
                simp [isDelim2]
              have hdw2 : (rest.dropWhile (fun c => !(isDelim1 c)) ++
                  ['/']).dropWhile (fun c => !(isDelim2 c)) = e :: (et ++ ['/']) := by
                rw [dropWhile_append_of_stop (by rw [hd2]; simp) _, hd2]
                rfl
              rcases he2 with rfl | rfl
              · -- '?' : the slash lands in the query or the fragment
                have hq1 := parsePQF_query_arm hd2
                have hq2 := parsePQF_query_arm hdw2
                rcases dropWhile_shape (· != '#') et with hd3 | ⟨f, ft, hd3, hp3⟩
                · -- no '#': slash extends the query
                  have hall3 : ∀ c ∈ et, (· != '#') c = true := by
                    intro c hc
                    by_contra hbad
                    rw [List.dropWhile_eq_nil_iff] at hd3
                    exact hbad (hd3 c hc)
                  refine Or.inr (Or.inl ⟨?_, et, ?_, ?_, ?_⟩)
                  · rw [hq1]
                    dsimp only
                    rw [hd3]
                  · rw [hq1]
                    dsimp only
                    rw [takeWhile_of_all hall3]
                  · rw [hq1, hq2]
                    dsimp only
                    exact hpq
                  · rw [hq2]
                    dsimp only
                    rw [takeWhile_append_of_all hall3]
                    simp [List.takeWhile_cons]
                · -- a '#' in the query part: slash lands in the fragment
                  have hd3ne : et.dropWhile (· != '#') ≠ [] := by
                    rw [hd3]
                    simp
                  refine Or.inl ⟨ft, ?_, ?_, ?_⟩
                  · rw [hq1]
                    dsimp only
                    rw [hd3]
                  · rw [hq1, hq2]
                    dsimp only
                    exact hpq
                  · rw [hq1, hq2]
                    dsimp only
                    rw [takeWhile_append_of_stop hd3ne]
              · -- '#' : the slash lands in the fragment
                have hq1 := parsePQF_frag_arm hd2
                have hq2 := parsePQF_frag_arm hdw2
                refine Or.inl ⟨et, ?_, ?_, ?_⟩
                · rw [hq1]
                · rw [hq1, hq2]
                  dsimp only
                  exact hpq
                · rw [hq1, hq2]
    · exact absurd h (by simp)

/-- takeWhile ignores a single appended element that fails the predicate. -/
theorem takeWhile_append_single {p : Char → Bool} {c : Char}
    (hc : p c = false) (l : List Char) :
    (l ++ [c]).takeWhile p = l.takeWhile p := by
  rcases dropWhile_shape p l with hd | ⟨d, t, hd, hp⟩
  · have hall : ∀ e ∈ l, p e := List.dropWhile_eq_nil_iff.mp hd
    rw [takeWhile_append_of_all hall, takeWhile_of_all hall]
    simp [List.takeWhile_cons, hc]
  · exact takeWhile_append_of_stop (by rw [hd]; simp) _

/-- Appending a slash to a list with no scheme split either still yields no
split or completes a "://" at the very end, leaving an empty remainder. -/
theorem splitSch_append_slash :
    ∀ {l : List Char}, splitSch l = none →
      splitSch (l ++ ['/']) = none ∨
        ∃ a, splitSch (l ++ ['/']) = some (a, []) := by
  intro l
  induction l with
  | nil =>
    intro _
    exact Or.inl (by decide)
  | cons c rest ih =>
    intro h
    rw [splitSch_cons] at h
    split at h
    · exact absurd h (by simp)
    · rename_i hcond
      have hrest : splitSch rest = none := by
        cases hs : splitSch rest with
        | none => rfl
        | some pr =>
          obtain ⟨a2, b2⟩ := pr
          rw [hs] at h
          exact absurd h (by simp)
      rw [List.cons_append, splitSch_cons]
      by_cases hc2 : c = ':' ∧ (rest ++ ['/']).take 2 = ['/', '/']
      · rw [if_pos hc2]
        obtain ⟨hc1, hc3⟩ := hc2
        cases rest with
        | nil => exact absurd hc3 (by decide)
        | cons d rest2 =>
          cases rest2 with
          | nil => exact Or.inr ⟨[], rfl⟩
          | cons e t =>
            exfalso
            apply hcond
            have hde : d = '/' ∧ e = '/' := by
              simp only [List.cons_append, List.take, List.cons.injEq] at hc3
              exact ⟨hc3.1, hc3.2.1⟩
            exact ⟨hc1, by
              rw [show (d :: e :: t).take 2 = [d, e] from rfl, hde.1, hde.2]⟩
      · rw [if_neg hc2]
        rcases ih hrest with h2 | ⟨a, h2⟩
        · rw [h2]
          exact Or.inl rfl
        · rw [h2]
          exact Or.inr ⟨c :: a, rfl⟩

/-- Appending a trailing slash to an unparseable URL leaves it
unparseable: either the scheme split still fails, or the new split has an
empty authority, which parseHostPort rejects. -/
theorem parseUrl_none_append_slash {l : List Char} (h : parseUrl l = none) :
    parseUrl (l ++ ['/']) = none := by
  cases hsp : splitSch l with
  | none =>
    rcases splitSch_append_slash hsp with h2 | ⟨a, h2⟩
    · unfold parseUrl
      rw [h2]
    · unfold parseUrl
      rw [h2]
      dsimp only
      split
      · rfl
      · rfl
  | some pr =>
    obtain ⟨schRaw, rest⟩ := pr
    unfold parseUrl at h
    rw [hsp] at h
    dsimp only at h
    obtain ⟨hdec, hnone⟩ := splitSch_some_decomp hsp
    have hsp2 : splitSch (l ++ ['/']) = some (schRaw, rest ++ ['/']) := by
      rw [hdec]
      rw [show (schRaw ++ ':' :: '/' :: '/' :: rest) ++ ['/'] =
        schRaw ++ ':' :: '/' :: '/' :: (rest ++ ['/']) by simp]
      exact splitSch_append_sch hnone _
    unfold parseUrl
    rw [hsp2]
    dsimp only
    split at h
    · rename_i hsch
      rw [if_pos hsch]
      have htk : (rest ++ ['/']).takeWhile (fun c => !(isDelim1 c)) =
          rest.takeWhile (fun c => !(isDelim1 c)) :=
        takeWhile_append_single (by simp [isDelim1]) rest
      rw [htk]
      split at h
      · rfl
      · exact absurd h (by simp)
    · rename_i hsch
      rw [if_neg hsch]

/-- The parse-failure fallback (strip at '#', then rstrip '/') is
unchanged by a trailing slash. -/
theorem fallback_append_slash (l : List Char) :
    rstripSlash ((l ++ ['/']).takeWhile (· != '#')) =
      rstripSlash (l.takeWhile (· != '#')) := by
  rcases dropWhile_shape (· != '#') l with hd | ⟨c, t, hd, hp⟩
  · have hall : ∀ e ∈ l, (e != '#') = true := List.dropWhile_eq_nil_iff.mp hd
    rw [takeWhile_append_of_all hall, takeWhile_of_all hall,
      show List.takeWhile (· != '#') ['/'] = ['/'] from by decide]
    exact rstripSlash_append_slash l
  · rw [takeWhile_append_of_stop (by rw [hd]; simp) _]

/-- The fallback string carries no '#', so stripping at '#' and rstripping
again fix it. -/
theorem fallback_fixed (l : List Char) :
    rstripSlash ((rstripSlash (l.takeWhile (· != '#'))).takeWhile (· != '#')) =
      rstripSlash (l.takeWhile (· != '#')) := by
  have hnh : ∀ c ∈ rstripSlash (l.takeWhile (· != '#')), (c != '#') = true := by
    intro c hc
    exact (mem_takeWhile (mem_of_mem_rstripSlash hc)).2
  rw [takeWhile_of_all hnh, rstripSlash_rstripSlash]

end UrlLemmas

section HelperLemmas

/-- Rewriting normalize_url at a successful parse. -/
theorem normalize_url_of_parse {u : String} {o : UrlObj}
    (h : parseUrl u.data = some o) :
    normalize_url u = String.mk (rstripSlash (reconChars o)) := by
  simp [normalize_url, normChars, h]

/-- The reconstruction only looks at scheme, host, path and query. -/
theorem reconChars_congr {o o' : UrlObj} (hs : o.scheme = o'.scheme)
    (hh : o.host = o'.host) (hp : o.path = o'.path) (hq : o.query = o'.query) :
    reconChars o = reconChars o' := by
  simp [reconChars, hs, hh, hp, hq]

/-- checkMaxPages is true exactly when max_pages is set and the done count
has reached it. -/
theorem checkMaxPages_eq_true {config : ScrapeJobConfig} {s : JobState}
    {m : Int} (hm : config.max_pages = some m)
    (h : (doneCount s : Int) ≥ m) : checkMaxPages config s = true := by
  simp [checkMaxPages, hm, doneCount] at h ⊢
  exact h

/-- pySet keeps exactly the members of its input. -/
theorem mem_pySet (l : List String) : ∀ a : String, a ∈ pySet l ↔ a ∈ l := by
  induction l with
  | nil => intro a; simp [pySet]
  | cons x xs ih =>
    intro a
    simp only [pySet]
    split
    · rename_i hx
      have hx2 : x ∈ xs := (ih x).mp (by simpa using hx)
      simp only [List.mem_cons, ih a]
      refine ⟨Or.inr, fun hc => ?_⟩
      rcases hc with he | hm
      · rw [he]
        exact hx2
      · exact hm
    · simp [List.mem_cons, ih a]

/-- Membership survives a set.add on the Page set. -/
theorem mem_setAddPage {ps : List Page} {pg p : Page} (h : p ∈ ps) :
    p ∈ setAddPage ps pg := by
  unfold setAddPage
  split
  · exact h
  · exact List.mem_append_left _ h

/-- set.add preserves per-url uniqueness of the Page set. -/
theorem pairwise_setAddPage {ps : List Page} {pg : Page}
    (h : ps.Pairwise (fun p q => p.url ≠ q.url)) :
    (setAddPage ps pg).Pairwise (fun p q => p.url ≠ q.url) := by
  unfold setAddPage
  split
  · exact h
  · rename_i hany
    rw [List.pairwise_append]
    refine ⟨h, List.pairwise_singleton _ _, fun p hp q hq => ?_⟩
    rw [List.mem_singleton] at hq
    subst hq
    simp only [List.any_eq_true, beq_iff_eq, not_exists, not_and] at hany
    exact hany p hp

/-- Updating one key of the depth dict leaves every other key's lookup
unchanged. -/
theorem dictGetD_dictSet_ne {k k' : String} (h : k' ≠ k) :
    ∀ (d : List (String × Nat)) (v : Nat),
      dictGetD (dictSet d k v) k' = dictGetD d k' := by
  have h1 : ¬ (k = k') := fun hk => h hk.symm
  intro d v
  induction d with
  | nil => simp [dictSet, dictGetD, h1]
  | cons e rest ih =>
    by_cases he : e.1 = k
    · have h2 : ¬ (e.1 = k') := fun hk => h (hk.symm.trans he)
      simp only [dictSet, if_pos he, dictGetD, if_neg h1, if_neg h2]
      exact ih
    · simp only [dictSet, if_neg he, dictGetD]
      by_cases hk' : e.1 = k'
      · rw [if_pos hk', if_pos hk']
      · rw [if_neg hk', if_neg hk']
        exact ih

/-- `a or b` applied twice with the same left side is stable. -/
theorem pyOr_pyOr (a b : Option String) : pyOr a (pyOr a b) = pyOr a b := by
  cases a with
  | none => rfl
  | some s =>
    by_cases hs : s = ""
    · simp [pyOr, hs]
    · simp [pyOr, hs]

/-- Nothing with the removed url survives the set.remove filter. -/
theorem find?_filter_url_ne (l : List Page) (url : String) :
    (l.filter (fun p => p.url != url)).find? (fun p => p.url == url) = none := by
  rw [List.find?_eq_none]
  intro p hp
  rw [List.mem_filter] at hp
  simpa using hp.2

/-- Pages present before the add_urls candidate loop are present after. -/
theorem addLoop_pages_mem (config : ScrapeJobConfig)
    (scraped allUrls : List String) (remaining : Int) (newDepth : Nat) :
    ∀ (urls : List String) (s : JobState) (added : List String)
      (processed : Int) (p : Page), p ∈ s.pages →
      p ∈ (addLoop config scraped allUrls remaining newDepth
        urls s added processed).1.pages := by
  intro urls
  induction urls with
  | nil => intro s added processed p h; exact h
  | cons u rest ih =>
    intro s added processed p h
    unfold addLoop
    split
    · exact h
    · split
      · exact ih _ _ _ p (mem_setAddPage h)
      · exact ih _ _ _ p h

/-- The candidate loop touches no depth entry of a url already known to
the all-urls snapshot, and every url it returns as accepted was either
already in the accumulator or lies outside that snapshot. -/
theorem addLoop_avoids_known (config : ScrapeJobConfig)
    (scraped allUrls : List String) (remaining : Int) (newDepth : Nat) :
    ∀ (urls : List String) (s : JobState) (added : List String)
      (processed : Int) (u : String), u ∈ allUrls →
      dictGetD (addLoop config scraped allUrls remaining newDepth
          urls s added processed).1.url_depths u = dictGetD s.url_depths u ∧
      (∀ x ∈ (addLoop config scraped allUrls remaining newDepth
          urls s added processed).2, x ∈ added ∨ x ∉ allUrls) := by
  intro urls
  induction urls with
  | nil =>
    intro s added processed u hu
    exact ⟨rfl, fun x hx => Or.inl hx⟩
  | cons url rest ih =>
    intro s added processed u hu
    unfold addLoop
    split
    · exact ⟨rfl, fun x hx => Or.inl hx⟩
    · split
      · rename_i hacc
        have hnot : normalize_url url ∉ allUrls := by
          have hb := (Bool.and_eq_true _ _).mp hacc |>.1
          rw [Bool.not_eq_true'] at hb
          intro hmem
          simp at hb
          exact hb hmem
        have hne : u ≠ normalize_url url := fun he => hnot (he ▸ hu)
        rcases ih (acceptUrl config newDepth s (normalize_url url))
            (added ++ [normalize_url url]) (processed + 1) u hu with ⟨hd, hl⟩
        refine ⟨?_, fun x hx => ?_⟩
        · rw [hd]
          exact dictGetD_dictSet_ne hne _ _
        · rcases hl x hx with hx2 | hx2
          · rcases List.mem_append.mp hx2 with hx3 | hx3
            · exact Or.inl hx3
            · rw [List.mem_singleton] at hx3
              exact Or.inr (hx3 ▸ hnot)
          · exact Or.inr hx2
      · exact ih s added processed u hu

/-- The candidate loop preserves per-url uniqueness of the Page set. -/
theorem addLoop_pages_pairwise (config : ScrapeJobConfig)
    (scraped allUrls : List String) (remaining : Int) (newDepth : Nat) :
    ∀ (urls : List String) (s : JobState) (added : List String)
      (processed : Int),
      s.pages.Pairwise (fun p q => p.url ≠ q.url) →
      (addLoop config scraped allUrls remaining newDepth
        urls s added processed).1.pages.Pairwise (fun p q => p.url ≠ q.url) := by
  intro urls
  induction urls with
  | nil => intro s added processed h; exact h
  | cons url rest ih =>
    intro s added processed h
    unfold addLoop
    split
    · exact h
    · split
      · exact ih _ _ _ (pairwise_setAddPage h)
      · exact ih _ _ _ h

/-- Every public operation preserves per-url uniqueness of the Page set. -/
theorem step_pages_pairwise (config : ScrapeJobConfig) (s : JobState) (op : Op)
    (h : s.pages.Pairwise (fun p q => p.url ≠ q.url)) :
    (step config s op).pages.Pairwise (fun p q => p.url ≠ q.url) := by
  cases op with
  | addUrls urls src =>
    show (match add_urls config s urls src with
      | some (s', _) => s'
      | none => s).pages.Pairwise _
    cases hadd : add_urls config s urls src with
    | none => exact h
    | some r =>
      unfold add_urls at hadd
      by_cases hc : checkMaxPages config s
      · simp only [hc, if_true, Option.some_inj] at hadd
        rw [← hadd]
        exact h
      · simp only [hc, if_false, Bool.false_eq_true] at hadd
        split at hadd
        · rw [Option.some_inj] at hadd
          rw [← hadd]
          exact h
        · cases hmp : config.max_pages with
          | none => rw [hmp] at hadd; exact absurd hadd (by simp)
          | some mp =>
            rw [hmp, Option.some_inj] at hadd
            rw [← hadd]
            exact addLoop_pages_pairwise _ _ _ _ _ _ _ _ _ h
  | markDone url fn ch =>
    show (mark_done config s url fn ch).pages.Pairwise _
    unfold mark_done
    cases hfind : s.pages.find? (fun p => p.url == url) with
    | none => exact h
    | some old => exact pairwise_setAddPage (List.Pairwise.filter _ h)
  | getPending =>
    show ((get_pending_urls config s).1).pages.Pairwise _
    unfold get_pending_urls
    split <;> exact h

/-- Folding seed insertions preserves per-url uniqueness of the Page set. -/
theorem foldl_initSeed_pairwise (config : ScrapeJobConfig) (seeds : List String) :
    ∀ s : JobState, s.pages.Pairwise (fun p q => p.url ≠ q.url) →
      (seeds.foldl (initSeed config) s).pages.Pairwise
        (fun p q => p.url ≠ q.url) := by
  induction seeds with
  | nil => intro s h; exact h
  | cons x xs ih =>
    intro s h
    exact ih _ (pairwise_setAddPage h)

/-- The seeded store has per-url uniqueness of the Page set. -/
theorem initState_pages_pairwise (config : ScrapeJobConfig) :
    (initState config).pages.Pairwise (fun p q => p.url ≠ q.url) :=
  foldl_initSeed_pairwise config config.seed_urls _ List.Pairwise.nil

/-- set.add appends when no page with the url is present. -/
theorem setAddPage_of_any_false {ps : List Page} {pg : Page}
    (h : ps.any (fun p => p.url == pg.url) = false) :
    setAddPage ps pg = ps ++ [pg] := by
  unfold setAddPage
  rw [h]
  rfl

/-- Membership in a string set after set.add. -/
theorem mem_setAddStr {l : List String} {u a : String} :
    a ∈ setAddStr l u ↔ a ∈ l ∨ a = u := by
  unfold setAddStr
  split
  · rename_i hc
    have hu : u ∈ l := by simpa using hc
    exact ⟨Or.inl, fun h => h.elim id (fun he => he ▸ hu)⟩
  · simp [List.mem_append]

/-- One seed insertion preserves the pending invariant together with
all-pages-not-done. -/
theorem initSeed_inv (config : ScrapeJobConfig) (s : JobState) (url : String)
    (h : pendingInv s) (hnd : ∀ p ∈ s.pages, p.done = false) :
    pendingInv (initSeed config s url) ∧
    ∀ p ∈ (initSeed config s url).pages, p.done = false := by
  have hshape : initSeed config s url =
      { pages := setAddPage s.pages
          { project_id := config.name, url := rstripS (seedStr url) },
        url_depths := dictSet s.url_depths (rstripS (seedStr url)) 0,
        pending_urls := setAddStr s.pending_urls (rstripS (seedStr url)) } := rfl
  rw [hshape]
  unfold setAddPage
  split
  · rename_i hany
    rw [List.any_eq_true] at hany
    obtain ⟨p0, hp0, hp0u⟩ := hany
    rw [beq_iff_eq] at hp0u
    have hpend : rstripS (seedStr url) ∈ s.pending_urls :=
      (h _).mpr ⟨p0, hp0, hnd p0 hp0, hp0u⟩
    have hsadd : setAddStr s.pending_urls (rstripS (seedStr url)) =
        s.pending_urls := by
      unfold setAddStr
      rw [if_pos (by simpa using hpend)]
    rw [hsadd]
    exact ⟨h, hnd⟩
  · rename_i hany
    rw [Bool.not_eq_true, List.any_eq_false] at hany
    have hnopage : ∀ p ∈ s.pages, p.url ≠ rstripS (seedStr url) := by
      intro p hp
      simpa using hany p hp
    constructor
    · intro u
      rw [show (setAddStr s.pending_urls (rstripS (seedStr url))) =
          s.pending_urls ++ [rstripS (seedStr url)] from by
        unfold setAddStr
        rw [if_neg]
        intro hc
        have : rstripS (seedStr url) ∈ s.pending_urls := by simpa using hc
        obtain ⟨p, hp, _, hpu⟩ := (h _).mp this
        exact hnopage p hp hpu]
      simp only [List.mem_append, List.mem_singleton]
      constructor
      · intro hu
        rcases hu with hu | hu
        · obtain ⟨p, hp, hd, hpu⟩ := (h u).mp hu
          exact ⟨p, Or.inl hp, hd, hpu⟩
        · exact ⟨_, Or.inr rfl, rfl, hu.symm⟩
      · rintro ⟨p, hp | hp, hd, hpu⟩
        · exact Or.inl ((h u).mpr ⟨p, hp, hd, hpu⟩)
        · subst hp
          exact Or.inr hpu.symm
    · intro p hp
      rcases List.mem_append.mp hp with hp | hp
      · exact hnd p hp
      · rw [List.mem_singleton] at hp
        subst hp
        rfl

/-- The seeded store satisfies the pending invariant, and all its pages are
not done. -/
theorem initState_pendingInv (config : ScrapeJobConfig) :
    pendingInv (initState config) ∧
    ∀ p ∈ (initState config).pages, p.done = false := by
  unfold initState
  have : ∀ (seeds : List String) (s : JobState), pendingInv s →
      (∀ p ∈ s.pages, p.done = false) →
      pendingInv (seeds.foldl (initSeed config) s) ∧
      ∀ p ∈ (seeds.foldl (initSeed config) s).pages, p.done = false := by
    intro seeds
    induction seeds with
    | nil => intro s h hnd; exact ⟨h, hnd⟩
    | cons x xs ih =>
      intro s h hnd
      obtain ⟨h2, hnd2⟩ := initSeed_inv config s x h hnd
      exact ih _ h2 hnd2
  refine this config.seed_urls ⟨[], [], []⟩ ?_ ?_
  · intro u
    simp [pendingInv]
  · intro p hp
    simp at hp

/-- The effect of mark_done on a url the store knows. -/
theorem mark_done_found {config : ScrapeJobConfig} {s : JobState}
    {url : String} {fn ch : Option String} {old : Page}
    (h : s.pages.find? (fun p => p.url == url) = some old) :
    mark_done config s url fn ch =
      { pages := s.pages.filter (fun p => p.url != url) ++
          [{ project_id := config.name, url := url, done := true,
             filename := pyOr fn old.filename,
             content_hash := pyOr ch old.content_hash }],
        url_depths := s.url_depths,
        pending_urls := s.pending_urls.filter (fun u => u != url) } := by
  unfold mark_done
  rw [h]
  unfold setAddPage
  have hany : (s.pages.filter (fun p => p.url != url)).any
      (fun p => p.url == (url : String)) = false := by
    rw [List.any_eq_false]
    intro p hp
    rw [List.mem_filter] at hp
    simpa using hp.2
  simp only [hany]
  rfl

/-- mark_done preserves the pending invariant. -/
theorem mark_done_pendingInv (config : ScrapeJobConfig) (s : JobState)
    (url : String) (fn ch : Option String) (h : pendingInv s) :
    pendingInv (mark_done config s url fn ch) := by
  cases hfind : s.pages.find? (fun p => p.url == url) with
  | none =>
    unfold mark_done
    rw [hfind]
    exact h
  | some old =>
    rw [mark_done_found hfind]
    intro u
    by_cases hu : u = url
    · subst hu
      constructor
      · intro hmem
        rw [List.mem_filter] at hmem
        simp at hmem
      · rintro ⟨p, hp, hd, hpu⟩
        rcases List.mem_append.mp hp with hp | hp
        · rw [List.mem_filter] at hp
          exact absurd hpu (by simpa using hp.2)
        · rw [List.mem_singleton] at hp
          subst hp
          simp at hd
    · constructor
      · intro hmem
        rw [List.mem_filter] at hmem
        obtain ⟨p, hp, hd, hpu⟩ := (h u).mp hmem.1
        refine ⟨p, List.mem_append_left _ ?_, hd, hpu⟩
        rw [List.mem_filter]
        refine ⟨hp, ?_⟩
        simpa using fun he => hu (hpu ▸ he)
      · rintro ⟨p, hp, hd, hpu⟩
        rcases List.mem_append.mp hp with hp | hp
        · rw [List.mem_filter] at hp
          rw [List.mem_filter]
          exact ⟨(h u).mpr ⟨p, hp.1, hd, hpu⟩, by simpa using hu⟩
        · rw [List.mem_singleton] at hp
          subst hp
          exact absurd hpu (fun he => hu he.symm)

/-- Accepting a candidate whose url no done page carries preserves the
pending invariant; every page of the result was present before or is not
done. -/
theorem acceptUrl_inv (config : ScrapeJobConfig) (newDepth : Nat)
    (s : JobState) (nu : String) (h : pendingInv s)
    (hnodone : ∀ p ∈ s.pages, p.url = nu → p.done = false) :
    pendingInv (acceptUrl config newDepth s nu) ∧
    ∀ p ∈ (acceptUrl config newDepth s nu).pages, p ∈ s.pages ∨ p.done = false := by
  have hshape : acceptUrl config newDepth s nu =
      { pages := setAddPage s.pages { project_id := config.name, url := nu },
        url_depths := dictSet s.url_depths nu newDepth,
        pending_urls := setAddStr s.pending_urls nu } := rfl
  rw [hshape]
  unfold setAddPage
  split
  · rename_i hany
    rw [List.any_eq_true] at hany
    obtain ⟨p0, hp0, hp0u⟩ := hany
    rw [beq_iff_eq] at hp0u
    have hpend : nu ∈ s.pending_urls :=
      (h _).mpr ⟨p0, hp0, hnodone p0 hp0 hp0u, hp0u⟩
    have hsadd : setAddStr s.pending_urls nu = s.pending_urls := by
      unfold setAddStr
      rw [if_pos (by simpa using hpend)]
    rw [hsadd]
    exact ⟨h, fun p hp => Or.inl hp⟩
  · rename_i hany
    rw [Bool.not_eq_true, List.any_eq_false] at hany
    have hnopage : ∀ p ∈ s.pages, p.url ≠ nu := by
      intro p hp
      simpa using hany p hp
    constructor
    · intro u
      rw [show setAddStr s.pending_urls nu = s.pending_urls ++ [nu] from by
        unfold setAddStr
        rw [if_neg]
        intro hc
        have : nu ∈ s.pending_urls := by simpa using hc
        obtain ⟨p, hp, _, hpu⟩ := (h _).mp this
        exact hnopage p hp hpu]
      simp only [List.mem_append, List.mem_singleton]
      constructor
      · intro hu
        rcases hu with hu | hu
        · obtain ⟨p, hp, hd, hpu⟩ := (h u).mp hu
          exact ⟨p, Or.inl hp, hd, hpu⟩
        · exact ⟨_, Or.inr rfl, rfl, hu.symm⟩
      · rintro ⟨p, hp | hp, hd, hpu⟩
        · exact Or.inl ((h u).mpr ⟨p, hp, hd, hpu⟩)
        · subst hp
          exact Or.inr hpu.symm
    · intro p hp
      rcases List.mem_append.mp hp with hp | hp
      · exact Or.inl hp
      · rw [List.mem_singleton] at hp
        subst hp
        exact Or.inr rfl

/-- The candidate loop preserves the pending invariant when every candidate
is normalization-stable. -/
theorem addLoop_pendingInv (config : ScrapeJobConfig)
    (scraped allUrls : List String) (remaining : Int) (newDepth : Nat) :
    ∀ (urls : List String) (s : JobState) (added : List String)
      (processed : Int),
      pendingInv s →
      urls.all stableUrl = true →
      (∀ p ∈ s.pages, p.done = true → normalize_url p.url ∈ allUrls) →
      pendingInv (addLoop config scraped allUrls remaining newDepth
        urls s added processed).1 := by
  intro urls
  induction urls with
  | nil => intro s added processed h _ _; exact h
  | cons url rest ih =>
    intro s added processed h hall haux
    rw [List.all_cons, Bool.and_eq_true] at hall
    have hstab : normalize_url (normalize_url url) = normalize_url url := by
      have := hall.1
      simpa [stableUrl] using this
    unfold addLoop
    split
    · exact h
    · split
      · rename_i hacc
        have hnot : normalize_url url ∉ allUrls := by
          have hb := (Bool.and_eq_true _ _).mp hacc |>.1
          rw [Bool.not_eq_true'] at hb
          intro hmem
          simp at hb
          exact hb hmem
        have hnodone : ∀ p ∈ s.pages, p.url = normalize_url url →
            p.done = false := by
          intro p hp hpu
          by_contra hd
          rw [Bool.not_eq_false] at hd
          have h1 := haux p hp hd
          rw [hpu, hstab] at h1
          exact hnot h1
        obtain ⟨h2, hmono⟩ := acceptUrl_inv config newDepth s
          (normalize_url url) h hnodone
        refine ih _ _ _ h2 hall.2 ?_
        intro p hp hd
        rcases hmono p hp with hp2 | hp2
        · exact haux p hp2 hd
        · rw [hp2] at hd
          exact absurd hd (by simp)
      · exact ih _ _ _ h hall.2 haux

/-- One clean public call preserves the pending invariant. -/
theorem step_pendingInv (config : ScrapeJobConfig) (s : JobState) (op : Op)
    (h : pendingInv s)
    (hclean : (match op with
      | Op.addUrls urls _ => urls.all stableUrl
      | Op.markDone _ _ _ => true
      | Op.getPending => !checkMaxPages config s) = true) :
    pendingInv (step config s op) := by
  cases op with
  | addUrls urls src =>
    show pendingInv (match add_urls config s urls src with
      | some (s', _) => s'
      | none => s)
    cases hadd : add_urls config s urls src with
    | none => exact h
    | some r =>
      unfold add_urls at hadd
      by_cases hc : checkMaxPages config s
      · simp only [hc, if_true, Option.some_inj] at hadd
        rw [← hadd]
        exact h
      · simp only [hc, if_false, Bool.false_eq_true] at hadd
        split at hadd
        · rw [Option.some_inj] at hadd
          rw [← hadd]
          exact h
        · cases hmp : config.max_pages with
          | none => rw [hmp] at hadd; exact absurd hadd (by simp)
          | some mp =>
            rw [hmp, Option.some_inj] at hadd
            rw [← hadd]
            show pendingInv (addLoop config _ _ _ _ urls s [] 0).1
            apply addLoop_pendingInv config _ _ _ _ urls s [] 0 h hclean
            intro p hp _
            rw [mem_pySet]
            exact List.mem_map_of_mem _ hp
  | markDone url fn ch => exact mark_done_pendingInv config s url fn ch h
  | getPending =>
    show pendingInv (get_pending_urls config s).1
    unfold get_pending_urls
    rw [if_neg]
    · exact h
    · simpa using hclean

end HelperLemmas

/-- C9: mark_done is total and idempotent.  (a) On an unknown url it is a
no-op (the Python code's find returns None and nothing is touched, no
exception).  (b) Calling it twice with the same arguments equals calling it
once.  (c) On a known url it yields a page with done = true carrying
`filename or old` / `content_hash or old` metadata, and the url is removed
from the pending set.  (d) No public operation ever takes a done page back
to not-done: a done page's url stays present and done across every step. -/
theorem C9_mark_done_total_idempotent :
    (∀ (config : ScrapeJobConfig) (s : JobState) (url : String)
       (fn ch : Option String),
       s.pages.find? (fun p => p.url == url) = none →
       mark_done config s url fn ch = s) ∧
    (∀ (config : ScrapeJobConfig) (s : JobState) (url : String)
       (fn ch : Option String),
       mark_done config (mark_done config s url fn ch) url fn ch =
         mark_done config s url fn ch) ∧
    (∀ (config : ScrapeJobConfig) (s : JobState) (url : String)
       (fn ch : Option String) (old : Page),
       s.pages.find? (fun p => p.url == url) = some old →
       ∃ q ∈ (mark_done config s url fn ch).pages, q.url = url ∧
         q.done = true ∧ q.filename = pyOr fn old.filename ∧
         q.content_hash = pyOr ch old.content_hash ∧
         url ∉ (mark_done config s url fn ch).pending_urls) ∧
    (∀ (config : ScrapeJobConfig) (s : JobState) (op : Op) (p : Page),
       p ∈ s.pages → p.done = true →
       ∃ q ∈ (step config s op).pages, q.url = p.url ∧ q.done = true) := by
  have hnoop : ∀ (config : ScrapeJobConfig) (s : JobState) (url : String)
      (fn ch : Option String),
      s.pages.find? (fun p => p.url == url) = none →
      mark_done config s url fn ch = s := by
    intro config s url fn ch h
    unfold mark_done
    rw [h]
  have hdone : ∀ (config : ScrapeJobConfig) (s : JobState) (url : String)
      (fn ch : Option String) (old : Page),
      s.pages.find? (fun p => p.url == url) = some old →
      mark_done config s url fn ch =
        { pages := s.pages.filter (fun p => p.url != url) ++
            [{ project_id := config.name, url := url, done := true,
               filename := pyOr fn old.filename,
               content_hash := pyOr ch old.content_hash }],
          url_depths := s.url_depths,
          pending_urls := s.pending_urls.filter (fun u => u != url) } := by
    intro config s url fn ch old h
    unfold mark_done
    rw [h]
    unfold setAddPage
    have : (s.pages.filter (fun p => p.url != url)).any
        (fun p => p.url == (url : String)) = false := by
      rw [List.any_eq_false]
      intro p hp
      rw [List.mem_filter] at hp
      simpa using hp.2
    simp only [this]
    rfl
  refine ⟨hnoop, ?_, ?_, ?_⟩
  · intro config s url fn ch
    cases hfind : s.pages.find? (fun p => p.url == url) with
    | none =>
      rw [hnoop config s url fn ch hfind, hnoop config s url fn ch hfind]
    | some old =>
      rw [hdone config s url fn ch old hfind]
      set newPg : Page :=
        { project_id := config.name, url := url, done := true,
          filename := pyOr fn old.filename,
          content_hash := pyOr ch old.content_hash } with hnew
      have hfind2 :
          ((s.pages.filter (fun p => p.url != url)) ++ [newPg]).find?
            (fun p => p.url == url) = some newPg := by
        rw [List.find?_append, find?_filter_url_ne]
        simp [hnew]
      rw [hdone config _ url fn ch newPg hfind2]
      have hpages : ((s.pages.filter (fun p => p.url != url)) ++ [newPg]).filter
          (fun p => p.url != url) = s.pages.filter (fun p => p.url != url) := by
        rw [List.filter_append, List.filter_filter]
        have h1 : List.filter (fun p => p.url != url) [newPg] = [] := by
          simp [hnew]
        have h2 : s.pages.filter (fun a => a.url != url && a.url != url) =
            s.pages.filter (fun a => a.url != url) := by
          congr 1
          funext a
          rw [Bool.and_self]
        rw [h1, h2, List.append_nil]
      have hpend : (s.pending_urls.filter (fun u => u != url)).filter
          (fun u => u != url) = s.pending_urls.filter (fun u => u != url) := by
        rw [List.filter_filter]
        congr 1
        funext a
        rw [Bool.and_self]
      simp only [hpages, hpend]
      congr 2
      simp [hnew, pyOr_pyOr]
  · intro config s url fn ch old hfind
    rw [hdone config s url fn ch old hfind]
    refine ⟨_, List.mem_append_right _ (List.mem_singleton_self _), rfl, rfl,
      rfl, rfl, ?_⟩
    intro hmem
    rw [List.mem_filter] at hmem
    simp at hmem
  · intro config s op p hp hpd
    cases op with
    | addUrls urls src =>
      show ∃ q ∈ (match add_urls config s urls src with
        | some (s', _) => s'
        | none => s).pages, q.url = p.url ∧ q.done = true
      cases hadd : add_urls config s urls src with
      | none => exact ⟨p, hp, rfl, hpd⟩
      | some r =>
        refine ⟨p, ?_, rfl, hpd⟩
        unfold add_urls at hadd
        by_cases hc : checkMaxPages config s
        · simp only [hc, if_true, Option.some_inj] at hadd
          rw [← hadd]
          exact hp
        · simp only [hc, if_false, Bool.false_eq_true] at hadd
          split at hadd
          · rw [Option.some_inj] at hadd
            rw [← hadd]
            exact hp
          · cases hmp : config.max_pages with
            | none => rw [hmp] at hadd; exact absurd hadd (by simp)
            | some mp =>
              rw [hmp] at hadd
              rw [Option.some_inj] at hadd
              rw [← hadd]
              exact addLoop_pages_mem _ _ _ _ _ _ _ _ _ _ hp
    | markDone url fn ch =>
      show ∃ q ∈ (mark_done config s url fn ch).pages, q.url = p.url ∧ q.done = true
      cases hfind : s.pages.find? (fun q => q.url == url) with
      | none =>
        rw [hnoop config s url fn ch hfind]
        exact ⟨p, hp, rfl, hpd⟩
      | some old =>
        rw [hdone config s url fn ch old hfind]
        by_cases hu : p.url = url
        · exact ⟨_, List.mem_append_right _ (List.mem_singleton_self _),
            hu.symm, rfl⟩
        · refine ⟨p, List.mem_append_left _ ?_, rfl, hpd⟩
          rw [List.mem_filter]
          exact ⟨hp, by simpa using hu⟩
    | getPending =>
      refine ⟨p, ?_, rfl, hpd⟩
      show p ∈ (get_pending_urls config s).1.pages
      unfold get_pending_urls
      split <;> exact hp

/-- C9 witness: mark_done on a url the store does not know is a no-op, and
repeating mark_done on the seed changes nothing the second time. -/
theorem C9_mark_done_witness :
    mark_done cfgUnlimited (initState cfgUnlimited) "https://nope.com"
        none none = initState cfgUnlimited ∧
    mark_done cfgUnlimited
        (mark_done cfgUnlimited (initState cfgUnlimited) "https://a.com"
          (some "a.md") none) "https://a.com" (some "a.md") none =
      mark_done cfgUnlimited (initState cfgUnlimited) "https://a.com"
        (some "a.md") none :=
  ⟨C9_mark_done_total_idempotent.1 cfgUnlimited (initState cfgUnlimited)
      "https://nope.com" none none (by decide),
   C9_mark_done_total_idempotent.2.1 cfgUnlimited (initState cfgUnlimited)
      "https://a.com" (some "a.md") none⟩

/-- C2 amended: the store does not bound the done count itself (mark_done
performs no budget check, see the counterexample), but once the done count
has reached a set max_pages, the budget is enforced at the boundaries the
spec names: add_urls admits nothing and leaves the store unchanged, and
get_pending surfaces no URLs (clearing the pending set). -/
theorem C2_budget_boundary (config : ScrapeJobConfig) (s : JobState)
    (m : Int) (hm : config.max_pages = some m)
    (h : (doneCount s : Int) ≥ m) :
    (∀ urls src, add_urls config s urls src = some (s, [])) ∧
    (get_pending_urls config s).2 = [] ∧
    (get_pending_urls config s).1.pending_urls = [] := by
  have hc := checkMaxPages_eq_true hm h
  refine ⟨fun urls src => ?_, ?_, ?_⟩ <;> simp [add_urls, get_pending_urls, hc]

/-- C2 witness: on the seeded max_pages = 0 store the budget boundary is
active immediately: add_urls admits nothing and get_pending is empty. -/
theorem C2_budget_boundary_witness :
    add_urls cfgBudgetZero (initState cfgBudgetZero) ["https://a.com/x"]
        "https://a.com" = some (initState cfgBudgetZero, []) ∧
    (get_pending_urls cfgBudgetZero (initState cfgBudgetZero)).2 = [] :=
  ⟨(C2_budget_boundary cfgBudgetZero (initState cfgBudgetZero) 0 (by decide)
      (by decide)).1 _ _,
   (C2_budget_boundary cfgBudgetZero (initState cfgBudgetZero) 0 (by decide)
      (by decide)).2.1⟩

/-- C5: add_urls computes new_depth = depth(normalize(source_url)) + 1 with
unknown sources defaulting to depth 0 (dictGetD); whenever max_depth is set
and new_depth exceeds it, the call returns the empty list with the store
unchanged — the whole batch is dropped before any candidate is examined.
In particular, with max_depth = 0 every call is rejected this way,
whatever the source and whatever the restriction policy. -/
theorem C5_whole_batch_depth_rejection :
    (∀ (config : ScrapeJobConfig) (s : JobState) (urls : List String)
       (src : String) (md : Int), config.max_depth = some md →
       ((dictGetD s.url_depths (normalize_url src) + 1 : Int) > md) →
       add_urls config s urls src = some (s, [])) ∧
    (∀ (config : ScrapeJobConfig) (s : JobState) (urls : List String)
       (src : String), config.max_depth = some 0 →
       add_urls config s urls src = some (s, [])) := by
  constructor
  · intro config s urls src md hmd hgt
    by_cases hc : checkMaxPages config s
    · simp [add_urls, hc]
    · simp [add_urls, hc, hmd, hgt]
  · intro config s urls src hmd
    by_cases hc : checkMaxPages config s
    · simp [add_urls, hc]
    · have hgt : ((dictGetD s.url_depths (normalize_url src) + 1 : Int) > 0) := by
        positivity
      simp [add_urls, hc, hmd, hgt]

/-- C5 witness: with max_depth = 0 on the cfgDocs store shape, a discovered
link batch from the seed is rejected outright. -/
theorem C5_whole_batch_depth_rejection_witness :
    add_urls { cfgDocs with max_depth := some 0 }
        (initState { cfgDocs with max_depth := some 0 })
        ["https://docs.example.com/guide/setup"]
        "https://docs.example.com/guide/intro" =
      some (initState { cfgDocs with max_depth := some 0 }, []) :=
  C5_whole_batch_depth_rejection.2 _ _ _ _ (by decide)

/-- C10: the normalizer drops the port: normalize_url depends only on the
parsed scheme, host, path and query, so two URLs whose parses agree on
those components — in particular two URLs differing only in an explicit
port — have the same canonical string, and deduplication treats them as
one page. -/
theorem C10_port_erased (u v : String) (ou ov : UrlObj)
    (hu : parseUrl u.data = some ou) (hv : parseUrl v.data = some ov)
    (hs : ou.scheme = ov.scheme) (hh : ou.host = ov.host)
    (hp : ou.path = ov.path) (hq : ou.query = ov.query) :
    normalize_url u = normalize_url v := by
  rw [normalize_url_of_parse hu, normalize_url_of_parse hv,
    reconChars_congr hs hh hp hq]

/-- C10 witness: an explicit port 8080 is erased, giving the same canonical
key as the portless URL. -/
theorem C10_port_erased_witness :
    normalize_url "https://a.com:8080/x" = normalize_url "https://a.com/x" :=
  C10_port_erased _ _
    ⟨"https".data, "a.com".data, "8080".data, "/x".data, none, none⟩
    ⟨"https".data, "a.com".data, [], "/x".data, none, none⟩
    (by decide) (by decide) rfl rfl rfl rfl

/-- C1: with max_pages unset (the scrape_job.py default, documented as
"None for unlimited"), add_urls does not return normally: it reaches
`remaining_slots = self.config.max_pages - len(scraped_urls)` and raises a
TypeError (modelled as none), even for a perfectly well-formed candidate
list and source. -/
theorem C1_add_urls_crashes_when_max_pages_none :
    add_urls cfgUnlimited (initState cfgUnlimited) ["https://a.com/x"]
      "https://a.com" = none ∧ cfgUnlimited.max_pages = none := by
  decide

/-- C2 counterexample: a reachable state (seeded store with max_pages = 0,
then one mark_done call on the seed) in which the number of done pages
exceeds max_pages — mark_done performs no budget check. -/
theorem C2_budget_exceeded_cex :
    cfgBudgetZero.max_pages = some 0 ∧
    doneCount (runTrace cfgBudgetZero [Op.markDone "https://a.com" none none]) = 1 := by
  decide

/-- C3 counterexample: after a single get_pending call on a seeded store
with max_pages = 0, the pending set is empty while the seed page still has
done = false, so pending no longer equals the set of not-done canonical
URLs. -/
theorem C3_pending_cleared_cex :
    (runTrace cfgBudgetZero [Op.getPending]).pending_urls = [] ∧
    (runTrace cfgBudgetZero [Op.getPending]).pages.any
      (fun p => !p.done && p.url == "https://a.com") = true := by
  decide

/-- C4 counterexample: two add_urls calls leave the store holding two Pages
("https://a.com/x" and "https://a.com/x?") whose canonical URLs are both
"https://a.com/x" — the dedup guard compares normalize(p.url) against the
candidate's normalized form, and "https://a.com/x?" is not a fixed point of
normalization, so the guard misses the collision. -/
theorem C4_duplicate_canonical_cex :
    ((runTrace cfgNoPath
        [Op.addUrls ["https://a.com/x"] "https://a.com",
         Op.addUrls ["https://a.com/x?/"] "https://a.com"]).pages.map
      (fun p => p.url)).contains "https://a.com/x" = true ∧
    ((runTrace cfgNoPath
        [Op.addUrls ["https://a.com/x"] "https://a.com",
         Op.addUrls ["https://a.com/x?/"] "https://a.com"]).pages.map
      (fun p => p.url)).contains "https://a.com/x?" = true ∧
    normalize_url "https://a.com/x?" = normalize_url "https://a.com/x" := by
  decide

/-- C3 amended: pending equals the not-done page urls in every state
reached by a clean trace — one in which get_pending is never called with
the budget already reached (the clearing branch of get_pending breaks the
equality, see the counterexample) and every add_urls candidate normalizes
to a fixed point (a non-stable candidate can re-enter the pending set of a
done page).  mark_done and budget- or depth-rejected add_urls calls need no
side condition. -/
theorem C3_pending_eq_not_done (config : ScrapeJobConfig) (tr : List Op)
    (h : cleanRun config (initState config) tr = true) :
    ∀ u : String, u ∈ (runTrace config tr).pending_urls ↔
      ∃ p ∈ (runTrace config tr).pages, p.done = false ∧ p.url = u := by
  have main : ∀ (ops : List Op) (s : JobState), pendingInv s →
      cleanRun config s ops = true → pendingInv (ops.foldl (step config) s) := by
    intro ops
    induction ops with
    | nil => intro s h2 _; exact h2
    | cons op rest ih =>
      intro s h2 hcl
      unfold cleanRun at hcl
      rw [Bool.and_eq_true] at hcl
      exact ih _ (step_pendingInv config s op h2 hcl.1) hcl.2
  exact main tr _ (initState_pendingInv config).1 h

/-- C3 witness: after the clean one-call trace that accepts guide/setup,
the pending set agrees with the not-done pages at guide/setup. -/
theorem C3_pending_eq_not_done_witness :
    "https://docs.example.com/guide/setup" ∈
      (runTrace cfgDocs
        [Op.addUrls ["https://docs.example.com/guide/setup"]
          "https://docs.example.com/guide/intro"]).pending_urls ↔
    ∃ p ∈ (runTrace cfgDocs
        [Op.addUrls ["https://docs.example.com/guide/setup"]
          "https://docs.example.com/guide/intro"]).pages,
      p.done = false ∧ p.url = "https://docs.example.com/guide/setup" :=
  C3_pending_eq_not_done cfgDocs
    [Op.addUrls ["https://docs.example.com/guide/setup"]
      "https://docs.example.com/guide/intro"] (by decide) _

/-- C4 amended: (a) in every reachable state the Page set holds at most one
Page per exact URL string (the Python set's Page equality is by url);
(b) for a Page whose url is a fixed point of normalization — true of every
well-formed URL without an all-slash query — any later add_urls call leaves
its depth entry untouched and never lists its url among the accepted
candidates, so re-proposing it from any source neither re-adds it nor
revises its depth.  Uniqueness of canonical URLs in the stronger sense of
the original claim fails (see the counterexample): a candidate whose
canonical form is not a normalization fixed point can slip past the dedup
guard and create a second Page with the same canonical URL. -/
theorem C4_uniqueness_first_wins :
    (∀ (config : ScrapeJobConfig) (tr : List Op),
       (runTrace config tr).pages.Pairwise (fun p q => p.url ≠ q.url)) ∧
    (∀ (config : ScrapeJobConfig) (s : JobState) (urls : List String)
       (src : String) (p : Page) (s' : JobState) (added : List String),
       p ∈ s.pages → normalize_url p.url = p.url →
       add_urls config s urls src = some (s', added) →
       p ∈ s'.pages ∧
       dictGetD s'.url_depths p.url = dictGetD s.url_depths p.url ∧
       p.url ∉ added) := by
  constructor
  · intro config tr
    unfold runTrace
    have : ∀ (ops : List Op) (s : JobState),
        s.pages.Pairwise (fun p q => p.url ≠ q.url) →
        (ops.foldl (step config) s).pages.Pairwise (fun p q => p.url ≠ q.url) := by
      intro ops
      induction ops with
      | nil => intro s h; exact h
      | cons op rest ih => intro s h; exact ih _ (step_pages_pairwise config s op h)
    exact this tr _ (initState_pages_pairwise config)
  · intro config s urls src p s' added hp hfix hadd
    unfold add_urls at hadd
    have unchanged : (s, ([] : List String)) = (s', added) →
        p ∈ s'.pages ∧
        dictGetD s'.url_depths p.url = dictGetD s.url_depths p.url ∧
        p.url ∉ added := by
      intro he
      have h1 : s = s' := congrArg Prod.fst he
      have h2 : ([] : List String) = added := congrArg Prod.snd he
      rw [← h1, ← h2]
      exact ⟨hp, rfl, List.not_mem_nil _⟩
    by_cases hc : checkMaxPages config s
    · simp only [hc, if_true, Option.some_inj] at hadd
      exact unchanged hadd
    · simp only [hc, if_false, Bool.false_eq_true] at hadd
      split at hadd
      · rw [Option.some_inj] at hadd
        exact unchanged hadd
      · cases hmp : config.max_pages with
        | none => rw [hmp] at hadd; exact absurd hadd (by simp)
        | some mp =>
          rw [hmp, Option.some_inj] at hadd
          have hmem : p.url ∈ pySet (s.pages.map (fun q => normalize_url q.url)) := by
            rw [mem_pySet, ← hfix]
            exact List.mem_map_of_mem _ hp
          have h1 : s' = (addLoop config
              (pySet ((s.pages.filter (fun q => q.done)).map
                (fun q => normalize_url q.url)))
              (pySet (s.pages.map (fun q => normalize_url q.url)))
              (mp - (pySet ((s.pages.filter (fun q => q.done)).map
                (fun q => normalize_url q.url))).length)
              (dictGetD s.url_depths (normalize_url src) + 1)
              urls s [] 0).1 := (congrArg Prod.fst hadd).symm
          have h2 : added = (addLoop config
              (pySet ((s.pages.filter (fun q => q.done)).map
                (fun q => normalize_url q.url)))
              (pySet (s.pages.map (fun q => normalize_url q.url)))
              (mp - (pySet ((s.pages.filter (fun q => q.done)).map
                (fun q => normalize_url q.url))).length)
              (dictGetD s.url_depths (normalize_url src) + 1)
              urls s [] 0).2 := (congrArg Prod.snd hadd).symm
          rcases addLoop_avoids_known config
            (pySet ((s.pages.filter (fun q => q.done)).map
              (fun q => normalize_url q.url)))
            (pySet (s.pages.map (fun q => normalize_url q.url)))
            (mp - (pySet ((s.pages.filter (fun q => q.done)).map
              (fun q => normalize_url q.url))).length)
            (dictGetD s.url_depths (normalize_url src) + 1)
            urls s [] 0 p.url hmem with ⟨hd, hl⟩
          refine ⟨?_, ?_, ?_⟩
          · rw [h1]
            exact addLoop_pages_mem _ _ _ _ _ _ _ _ _ _ hp
          · rw [h1]
            exact hd
          · rw [h2]
            intro hx
            rcases hl p.url hx with hx2 | hx2
            · exact List.not_mem_nil _ hx2
            · exact hx2 hmem

/-- C4 witness: in the reachable cfgNoPath store that already holds the
page https://a.com/x (whose url is a normalization fixed point),
re-proposing that url from the seed is not accepted, leaves its depth entry
at 1, and keeps the page present. -/
theorem C4_uniqueness_first_wins_witness :
    (⟨"job", "https://a.com/x", none, none, false⟩ : Page) ∈
      (runTrace cfgNoPath [Op.addUrls ["https://a.com/x"] "https://a.com"]).pages ∧
    dictGetD (runTrace cfgNoPath
        [Op.addUrls ["https://a.com/x"] "https://a.com",
         Op.addUrls ["https://a.com/x"] "https://a.com/x"]).url_depths
      "https://a.com/x" = 1 ∧
    ("https://a.com/x" : String) ∉
      ((add_urls cfgNoPath
        (runTrace cfgNoPath [Op.addUrls ["https://a.com/x"] "https://a.com"])
        ["https://a.com/x"] "https://a.com/x").getD
          (runTrace cfgNoPath [Op.addUrls ["https://a.com/x"] "https://a.com"],
            [])).2 := by
  have happ := C4_uniqueness_first_wins.2 cfgNoPath
    (runTrace cfgNoPath [Op.addUrls ["https://a.com/x"] "https://a.com"])
    ["https://a.com/x"] "https://a.com/x"
    ⟨"job", "https://a.com/x", none, none, false⟩
    (runTrace cfgNoPath
      [Op.addUrls ["https://a.com/x"] "https://a.com",
       Op.addUrls ["https://a.com/x"] "https://a.com/x"])
    (((add_urls cfgNoPath
        (runTrace cfgNoPath [Op.addUrls ["https://a.com/x"] "https://a.com"])
        ["https://a.com/x"] "https://a.com/x").getD
      (runTrace cfgNoPath [Op.addUrls ["https://a.com/x"] "https://a.com"],
        [])).2)
    (by decide) (by decide) (by decide)
  refine ⟨happ.1, ?_, happ.2.2⟩
  rw [happ.2.1]
  decide

/-- C6: the end-to-end scenario.  From the seeded cfgDocs store:
the first add_urls (source guide/intro) accepts exactly guide/setup at
depth 1, rejecting other.com/x (domain) and api/ref (first path segment);
after intro and setup are marked done, the second add_urls (source
guide/setup) rejects guide/intro#section as a duplicate of the done intro
page and accepts guide/advanced at depth 2; once advanced is also done,
get_pending returns the empty list. -/
theorem C6_end_to_end_scenario :
    add_urls cfgDocs (initState cfgDocs)
        ["https://docs.example.com/guide/setup", "https://other.com/x",
         "https://docs.example.com/api/ref"]
        "https://docs.example.com/guide/intro" =
      some (runTrace cfgDocs
          [Op.addUrls ["https://docs.example.com/guide/setup",
             "https://other.com/x", "https://docs.example.com/api/ref"]
            "https://docs.example.com/guide/intro"],
        ["https://docs.example.com/guide/setup"]) ∧
    dictGetD (runTrace cfgDocs
        [Op.addUrls ["https://docs.example.com/guide/setup",
           "https://other.com/x", "https://docs.example.com/api/ref"]
          "https://docs.example.com/guide/intro"]).url_depths
      "https://docs.example.com/guide/setup" = 1 ∧
    (let sDone := runTrace cfgDocs
        [Op.addUrls ["https://docs.example.com/guide/setup",
           "https://other.com/x", "https://docs.example.com/api/ref"]
          "https://docs.example.com/guide/intro",
         Op.markDone "https://docs.example.com/guide/intro"
           (some "intro.md") (some "h1"),
         Op.markDone "https://docs.example.com/guide/setup"
           (some "setup.md") (some "h2")];
     add_urls cfgDocs sDone
        ["https://docs.example.com/guide/intro#section",
         "https://docs.example.com/guide/advanced"]
        "https://docs.example.com/guide/setup" =
      some (step cfgDocs sDone
          (Op.addUrls ["https://docs.example.com/guide/intro#section",
             "https://docs.example.com/guide/advanced"]
            "https://docs.example.com/guide/setup"),
        ["https://docs.example.com/guide/advanced"]) ∧
     dictGetD (step cfgDocs sDone
         (Op.addUrls ["https://docs.example.com/guide/intro#section",
            "https://docs.example.com/guide/advanced"]
           "https://docs.example.com/guide/setup")).url_depths
       "https://docs.example.com/guide/advanced" = 2 ∧
     (get_pending_urls cfgDocs
        (mark_done cfgDocs
          (step cfgDocs sDone
            (Op.addUrls ["https://docs.example.com/guide/intro#section",
               "https://docs.example.com/guide/advanced"]
              "https://docs.example.com/guide/setup"))
          "https://docs.example.com/guide/advanced" none none)).2 = []) := by
  decide

/-- C8: evaluating the restriction policy at the failing input.  With the
pathless seed "https://a.com/" and path restriction enabled, the candidate
"https://a.com/docs" is rejected (HttpUrl gives the seed the path "/", so
the seed contributes the empty first segment to seed_paths and every
candidate with a non-empty first segment fails the membership test); the
same candidate passes once path restriction is disabled, so the path check
alone rejects it, contradicting "seed URLs with no path segment impose no
constraint". -/
theorem C8_pathless_seed_rejects_on_path :
    should_scrape_url "https://a.com/docs" cfgPathlessSeed [] = false ∧
    should_scrape_url "https://a.com/docs"
      { cfgPathlessSeed with path_restricted := false } [] = true := by
  decide

/-- C7 counterexample: normalization is not idempotent on
"https://a.com/x?/" (the rstrip('/') eats the all-slash query, and the
re-parse of the resulting "https://a.com/x?" has a falsy empty query), and
"https://a.com/x?" versus the same string with a trailing slash appended
normalize to different canonical strings. -/
theorem C7_not_idempotent_cex :
    normalize_url (normalize_url "https://a.com/x?/") ≠
      normalize_url "https://a.com/x?/" ∧
    normalize_url ("https://a.com/x?" ++ "/") ≠ normalize_url "https://a.com/x?" := by
  decide

/-- C7: the normalization contract, amended.  (i) Idempotence holds for
every URL except those parsing with a non-empty all-slash query (the
counterexample family): normalize(normalize(u)) = normalize(u) whenever
allSlashQuery u is false.  (ii) URLs whose parses agree on scheme, host,
path and query — in particular URLs differing only in their fragment —
normalize to the same canonical string.  (iii) Appending a trailing slash
never changes the canonical form except for URLs parsing with an empty
query and no fragment: normalize(u ++ "/") = normalize(u) whenever
emptyQueryNoFrag u is false. -/
theorem C7_normalization_idempotent_amended :
    (∀ u : String, allSlashQuery u = false →
      normalize_url (normalize_url u) = normalize_url u) ∧
    (∀ (u v : String) (ou ov : UrlObj), parseUrl u.data = some ou →
      parseUrl v.data = some ov → ou.scheme = ov.scheme → ou.host = ov.host →
      ou.path = ov.path → ou.query = ov.query →
      normalize_url u = normalize_url v) ∧
    (∀ u : String, emptyQueryNoFrag u = false →
      normalize_url (u ++ "/") = normalize_url u) := by
  refine ⟨?_, ?_, ?_⟩
  · -- idempotence away from all-slash queries
    intro u hu
    cases hp : parseUrl u.data with
    | none =>
      have h1 : normChars u.data =
          rstripSlash (u.data.takeWhile (· != '#')) := by
        simp [normChars, hp]
      have h2 : normChars (rstripSlash (u.data.takeWhile (· != '#'))) =
          rstripSlash (u.data.takeWhile (· != '#')) := by
        simp only [normChars, parseUrl_fallback_none hp]
        exact fallback_fixed u.data
      show String.mk (normChars (normChars u.data)) =
        String.mk (normChars u.data)
      rw [h1, h2]
    | some o =>
      obtain ⟨hs, hh, hlow, hhc, hph, hpc, hqc⟩ := parseUrl_some_facts hp
      have hgood : ∀ q, o.query = some q → q = [] ∨ ∃ d ∈ q, d ≠ '/' := by
        intro q hq
        have hu2 : (!q.isEmpty && q.all (· == '/')) = false := by
          unfold allSlashQuery at hu
          rw [hp] at hu
          dsimp only at hu
          rw [hq] at hu
          dsimp only at hu
          exact hu
        by_cases hql : q = []
        · exact Or.inl hql
        · right
          have hne : q.isEmpty = false := by
            simpa [List.isEmpty_iff] using hql
          rw [hne] at hu2
          simp only [Bool.not_false, Bool.true_and] at hu2
          have hna : ¬ (q.all (· == '/') = true) := by
            simp [hu2]
          simp only [List.all_eq_true] at hna
          push_neg at hna
          obtain ⟨d, hdm, hdne⟩ := hna
          exact ⟨d, hdm, by simpa using hdne⟩
      have hfix := normChars_recon_fixed hs hh hlow hhc hph hpc hqc hgood
      have h1 : normChars u.data = rstripSlash (reconChars o) := by
        simp [normChars, hp]
      show String.mk (normChars (normChars u.data)) =
        String.mk (normChars u.data)
      rw [h1, hfix]
  · -- fragment (and port) erasure: recon reads only scheme/host/path/query
    intro u v ou ov hu hv hs hh hpp hq
    rw [normalize_url_of_parse hu, normalize_url_of_parse hv,
      reconChars_congr hs hh hpp hq]
  · -- trailing-slash invariance away from empty-query-no-fragment URLs
    intro u hu
    have hdata : (u ++ "/").data = u.data ++ ['/'] := by
      cases u with
      | mk d => rfl
    cases hp : parseUrl u.data with
    | none =>
      have hp2 : parseUrl (u.data ++ ['/']) = none :=
        parseUrl_none_append_slash hp
      have h1 : normChars (u.data ++ ['/']) =
          rstripSlash ((u.data ++ ['/']).takeWhile (· != '#')) := by
        simp [normChars, hp2]
      have h2 : normChars u.data =
          rstripSlash (u.data.takeWhile (· != '#')) := by
        simp [normChars, hp]
      show String.mk (normChars (u ++ "/").data) = String.mk (normChars u.data)
      rw [hdata, h1, h2, fallback_append_slash]
    | some o =>
      have hemp : ¬(o.query = some [] ∧ o.fragment = none) := by
        rintro ⟨hq, hf⟩
        have htrue : emptyQueryNoFrag u = true := by
          unfold emptyQueryNoFrag
          rw [hp]
          dsimp only
          rw [hq, hf]
          decide
        rw [htrue] at hu
        exact absurd hu (by simp)
      obtain ⟨o2, hp2, hsch, hhost, hcase⟩ := parseUrl_append_slash hp
      have hp2s : parseUrl (u ++ "/").data = some o2 := by
        rw [hdata]
        exact hp2
      rw [normalize_url_of_parse hp2s, normalize_url_of_parse hp]
      rcases hcase with ⟨f, hf, hpath, hq⟩ | ⟨hf, q, hq, hpath, hq2⟩ |
        ⟨hf, hq, hq2, hpath⟩
      · -- a fragment absorbed the slash: the reconstructions coincide
        rw [reconChars_congr hsch hhost hpath hq]
      · -- the query absorbed the slash, and the rstrip removes it
        have hqne : q ≠ [] := by
          intro he
          exact hemp ⟨he ▸ hq, hf⟩
        obtain ⟨c, qt, rfl⟩ := List.exists_cons_of_ne_nil hqne
        have hr : reconChars o2 = reconChars o ++ ['/'] := by
          unfold reconChars
          rw [hq, hq2, hsch, hhost, hpath]
          simp [List.append_assoc]
        rw [hr, rstripSlash_append_slash]
      · -- no query, no fragment: the slash lands in the path, if anywhere
        rcases hpath with hpp | hpp
        · rw [reconChars_congr hsch hhost hpp (by rw [hq, hq2])]
        · have hr : reconChars o2 = reconChars o ++ ['/'] := by
            unfold reconChars
            rw [hq, hq2, hsch, hhost, hpp]
            simp [List.append_assoc]
          rw [hr, rstripSlash_append_slash]

/-- C7 witness: idempotence at a well-formed query URL, fragment erasure at
a concrete fragment-bearing URL, and trailing-slash invariance at a
query-free URL. -/
theorem C7_normalization_idempotent_amended_witness :
    allSlashQuery "https://a.com/x?a=1" = false ∧
    normalize_url (normalize_url "https://a.com/x?a=1") =
      normalize_url "https://a.com/x?a=1" ∧
    normalize_url "https://a.com/x#frag" = normalize_url "https://a.com/x" ∧
    emptyQueryNoFrag "https://a.com/x" = false ∧
    normalize_url ("https://a.com/x" ++ "/") = normalize_url "https://a.com/x" :=
  ⟨by decide,
   C7_normalization_idempotent_amended.1 "https://a.com/x?a=1" (by decide),
   C7_normalization_idempotent_amended.2.1 "https://a.com/x#frag"
     "https://a.com/x"
     ⟨"https".data, "a.com".data, [], "/x".data, none, some "frag".data⟩
     ⟨"https".data, "a.com".data, [], "/x".data, none, none⟩
     (by decide) (by decide) rfl rfl rfl rfl,
   by decide,
   C7_normalization_idempotent_amended.2.2 "https://a.com/x" (by decide)⟩

end MetaPrompter
